import Mathlib

/-!
# Verification of the dspro shortest-path core (src/script.js)

A shallow embedding of the core functions of `src/script.js`:
`parseEdges`, `dijkstra`, `reconstructPath` and `extractNodes`, together
with proofs of the specification's claims about them.

Modelling conventions:
* JavaScript `Map` objects are insertion-ordered association lists
  (`List (String × α)`); `Map.get`/`Map.set`/`Map.has` become `mapGet`,
  `mapSet`, `mapHas`.  `mapSet` updates an existing key in place and
  appends a fresh key at the end, exactly like `Map.set`.
* JavaScript numbers are modelled by `ℚ` (all weights accepted by
  `parseEdges` are finite), with `Infinity` represented by `⊤ : WithTop ℚ`
  in the distance map.
* `throw new Error(msg)` becomes `Except.error msg`; the apostrophes of
  the source message are written with the `\x27` escape.
* The `while` loops are modelled by well-founded recursion
  (`dijkstraLoop`) and an explicit step bound (`reconstructPath`), since
  the JavaScript loops have no syntactic bound.
-/

namespace Dspro

/-! ## Association lists modelling JavaScript `Map` -/

/-- `Map.get k`: first binding of `k`, if any. -/
def mapGet {α : Type} (m : List (String × α)) (k : String) : Option α :=
  match m with
  | [] => none
  | (k', v) :: rest => if k' = k then some v else mapGet rest k

/-- `Map.set k v`: overwrite an existing binding in place, else append. -/
def mapSet {α : Type} (m : List (String × α)) (k : String) (v : α) : List (String × α) :=
  match m with
  | [] => [(k, v)]
  | (k', v') :: rest => if k' = k then (k', v) :: rest else (k', v') :: mapSet rest k v

/-- `Map.has k`. -/
def mapHas {α : Type} (m : List (String × α)) (k : String) : Bool :=
  (mapGet m k).isSome

/-! ## Data model -/

/-- Inner adjacency map: neighbour identifier ↦ edge weight. -/
abbrev Adjacency := List (String × ℚ)

/-- The graph: node identifier ↦ adjacency map (`Map` of `Map`s in the source). -/
abbrev Graph := List (String × Adjacency)

/-! ## Line splitting, trimming and tokenizing

These string primitives are written over `List Char` (rather than through
the byte-position-based core `String` functions) so that they evaluate on
concrete inputs; they implement the same splitting the source's regexes
perform.  Whitespace is `Char.isWhitespace` (space, tab, CR, LF) — the
JavaScript `\s` class and `trim` accept a few additional exotic Unicode
space characters, which are not modelled. -/

/-- Split a character list at every occurrence of `sep` (the pieces do
not contain `sep`; `n` separators give `n+1` pieces). -/
def splitCharsOn (sep : Char) : List Char → List (List Char)
  | [] => [[]]
  | c :: cs =>
    if c = sep then [] :: splitCharsOn sep cs
    else
      match splitCharsOn sep cs with
      | [] => [[c]]
      | l :: ls => (c :: l) :: ls

/-- Remove one trailing carriage return, if present. -/
def stripCR (l : List Char) : List Char :=
  match l.getLast? with
  | some c => if c = '\r' then l.dropLast else l
  | none => l

/-- `text.split(/\r?\n/)`: split on newlines, a preceding `\r` being
consumed with the `\n`.  (A carriage return not followed by a newline is
kept by the regex but dropped here; it is trailing whitespace on its
line, so the trimming applied to every line erases the difference.) -/
def splitLines (text : String) : List String :=
  (splitCharsOn '\n' text.data).map (fun l => String.mk (stripCR l))

/-- `line.trim()`: strip leading and trailing whitespace. -/
def trimStr (s : String) : String :=
  String.mk (((s.data.dropWhile Char.isWhitespace).reverse.dropWhile Char.isWhitespace).reverse)

/-- `line.startsWith('#')`. -/
def startsWithHash (s : String) : Bool :=
  match s.data with
  | c :: _ => c = '#'
  | [] => false

/-- One step of `line.split(/\s+/)`: accumulate the current field
(in reverse) and cut at whitespace runs. -/
def tokensAux : List Char → List Char → List String
  | [], cur => if cur.isEmpty then [] else [String.mk cur.reverse]
  | c :: cs, cur =>
    if c.isWhitespace then
      if cur.isEmpty then tokensAux cs [] else String.mk cur.reverse :: tokensAux cs []
    else tokensAux cs (c :: cur)

/-- `line.split(/\s+/)` on an already-trimmed line: split on runs of
whitespace into non-empty fields. -/
def tokenize (line : String) : List String :=
  tokensAux line.data []

/-- Lexicographic comparison of character lists (`true` iff `as ≤ bs`),
written as an executable Boolean function. -/
def charListLe : List Char → List Char → Bool
  | [], _ => true
  | _ :: _, [] => false
  | a :: as, b :: bs => if a < b then true else if b < a then false else charListLe as bs

/-- The default-comparator string order used by `Array.prototype.sort()`:
lexicographic comparison of the character sequences. -/
def strLe (a b : String) : Prop :=
  charListLe a.data b.data = true

instance : DecidableRel strLe :=
  fun a b => inferInstanceAs (Decidable (charListLe a.data b.data = true))

/-! ## The `Number(tok)` conversion -/

/-- Split a leading run of decimal digits off a character list. -/
def takeDigits : List Char → List Char × List Char
  | [] => ([], [])
  | c :: cs =>
    if c.isDigit then
      let p := takeDigits cs
      (c :: p.1, p.2)
    else ([], c :: cs)

/-- Value of a digit string. -/
def digitsToNat (ds : List Char) : ℕ :=
  ds.foldl (fun a c => a * 10 + (c.toNat - 48)) 0

/-- Parse `digits [. digits]` (at least one digit present). -/
def parseMantissa (cs : List Char) : Option (ℚ × List Char) :=
  let ip := takeDigits cs
  match ip.2 with
  | '.' :: r2 =>
    let fp := takeDigits r2
    if ip.1.isEmpty && fp.1.isEmpty then none
    else some ((digitsToNat ip.1 : ℚ) + (digitsToNat fp.1 : ℚ) / ((10 : ℚ) ^ fp.1.length), fp.2)
  | _ => if ip.1.isEmpty then none else some ((digitsToNat ip.1 : ℚ), ip.2)

/-- Parse `[+|-] digits` after an exponent marker. -/
def parseExponent (cs : List Char) : Option (ℤ × List Char) :=
  let p : Bool × List Char :=
    match cs with
    | '+' :: r => (false, r)
    | '-' :: r => (true, r)
    | r => (false, r)
  let dp := takeDigits p.2
  if dp.1.isEmpty then none
  else some ((if p.1 then -(digitsToNat dp.1 : ℤ) else (digitsToNat dp.1 : ℤ)), dp.2)

/-- The JavaScript `Number(tok)` conversion, on the whitespace-free
tokens produced by `tokenize`.  `none` stands for a result that is `NaN`
or `±Infinity` — exactly the values rejected by the caller's
`Number.isFinite` check.  Signed decimal literals with optional
fractional part and exponent are modelled; the exotic hex/octal/binary
literal forms are treated as `NaN`. -/
def jsNumber (s : String) : Option ℚ :=
  match s.data with
  | [] => some 0
  | cs =>
    let sp : Bool × List Char :=
      match cs with
      | '-' :: r => (true, r)
      | '+' :: r => (false, r)
      | r => (false, r)
    if sp.2 = "Infinity".data then none
    else
      match parseMantissa sp.2 with
      | none => none
      | some (m, rest) =>
        let signed := if sp.1 then -m else m
        match rest with
        | [] => some signed
        | 'e' :: r => (match parseExponent r with
          | some (e, []) => some (signed * (10 : ℚ) ^ e)
          | _ => none)
        | 'E' :: r => (match parseExponent r with
          | some (e, []) => some (signed * (10 : ℚ) ^ e)
          | _ => none)
        | _ => none

/-! ## parseEdges -/

/-- `const ensure = (u) => { if (!graph.has(u)) graph.set(u, new Map()); }` -/
def ensure (g : Graph) (u : String) : Graph :=
  if mapHas g u then g else mapSet g u []

/-- `graph.get(u)`, defaulting to the empty map. -/
def getAdj (g : Graph) (u : String) : Adjacency :=
  (mapGet g u).getD []

/-- The graph update performed for one parsed edge:
`ensure(u); ensure(v); graph.get(u).set(v, w); if (undirected) graph.get(v).set(u, w);` -/
def addEdge (g : Graph) (u v : String) (w : ℚ) (undirected : Bool) : Graph :=
  let g1 := ensure (ensure g u) v
  let g2 := mapSet g1 u (mapSet (getAdj g1 u) v w)
  if undirected then mapSet g2 v (mapSet (getAdj g2 v) u w) else g2

/-- `parts.length >= 3 ? Number(parts[2]) : 1` for `parts = u :: v :: rest`. -/
def lineWeight (rest : List String) : Option ℚ :=
  match rest with
  | [] => some 1
  | t :: _ => jsNumber t

/-- The body of the `for` loop of `parseEdges`, for one raw line. -/
def processLine (undirected : Bool) (g : Graph) (raw : String) : Except String Graph :=
  let line := trimStr raw
  if line = "" || startsWithHash line then .ok g
  else
    match tokenize line with
    | u :: v :: rest =>
      match lineWeight rest with
      | none => .error ("Invalid weight at line: " ++ line)
      | some w =>
        if w < 0 then .error ("Invalid weight at line: " ++ line)
        else .ok (addEdge g u v w undirected)
    | _ => .error ("Invalid edge line (need at least u v): " ++ line)

/-- `parseEdges(text, undirected)`: fold the loop body over the lines,
starting from an empty graph; a thrown error aborts the whole parse. -/
def parseEdges (text : String) (undirected : Bool) : Except String Graph :=
  (splitLines text).foldlM (processLine undirected) []

/-! ## dijkstra -/

/-- The frontier order used by `pq.sort((a,b)=>a[0]-b[0])`: compare
entries by tentative distance. -/
def pqRel (a b : ℚ × String) : Prop :=
  a.1 ≤ b.1

instance : DecidableRel pqRel := fun a b => inferInstanceAs (Decidable (a.1 ≤ b.1))

/-- The mutable state of `dijkstra`'s main loop. -/
structure DState where
  dist : List (String × WithTop ℚ)
  prev : List (String × Option String)
  visited : List String
  pq : List (ℚ × String)

/-- `dist.get(v) ?? Infinity`: the distance map as the algorithm reads it. -/
def distOf (dist : List (String × WithTop ℚ)) (x : String) : WithTop ℚ :=
  (mapGet dist x).getD ⊤

/-- One relaxation: the body of `for (const [v, w] of adj.entries())`,
with `alt = dCur + w` written out. -/
def relaxOne (dCur : ℚ) (u : String) (st : DState) (e : String × ℚ) : DState :=
  if ((dCur + e.2 : ℚ) : WithTop ℚ) < distOf st.dist e.1 then
    { st with
      dist := mapSet st.dist e.1 ((dCur + e.2 : ℚ) : WithTop ℚ)
      prev := mapSet st.prev e.1 (some u)
      pq := st.pq ++ [(dCur + e.2, e.1)] }
  else st

/-- Keys of the graph, in insertion order. -/
def keysOf (g : Graph) : List String :=
  g.map Prod.fst

/-- Total number of adjacency entries. -/
def totalAdj (g : Graph) : ℕ :=
  (g.map (fun p => p.2.length)).sum

/-- Number of graph keys not yet visited (termination measure helper). -/
def unvisitedCount (g : Graph) (vis : List String) : ℕ :=
  ((keysOf g).filter (fun k => decide (k ∉ vis))).length

/-- Termination measure for the main loop. -/
def dMeasure (g : Graph) (st : DState) : ℕ :=
  st.pq.length + unvisitedCount g st.visited * (1 + totalAdj g)

/-- One-step-per-fuel-unit unfolding of `dijkstra`'s main loop
`while (pq.length) { ... }`.  Each iteration re-sorts the frontier in
place and shifts off the head (`pq.sort((a,b)=>a[0]-b[0]); pq.shift()`);
an already-visited node is discarded (lazy deletion), otherwise it is
visited and all its adjacency entries are relaxed.  JavaScript's
`Array.prototype.sort` is a stable sort, and a stable sort by tentative
distance is unique, so it is modelled by the (stable) insertion sort
`List.insertionSort pqRel`.  The JavaScript loop is unbounded; here the
step count is made explicit, and `dijkstraLoopF_stable` below shows any
count of at least `dMeasure g st` steps drains the queue and gives the
same final state, so `dijkstraLoop` below is exactly the
run-to-completion loop. -/
def dijkstraLoopF (g : Graph) : ℕ → DState → DState
  | 0, st => st
  | n + 1, st =>
    match st.pq.insertionSort pqRel with
    | [] => st
    | (dCur, u) :: rest =>
      if u ∈ st.visited then
        dijkstraLoopF g n { st with pq := rest }
      else
        dijkstraLoopF g n ((getAdj g u).foldl (relaxOne dCur u)
          { st with visited := st.visited ++ [u], pq := rest })

/-- The main loop, run to completion (`dMeasure` bounds the number of
iterations, and by `dijkstraLoopF_stable` the cut-off is immaterial). -/
def dijkstraLoop (g : Graph) (st : DState) : DState :=
  dijkstraLoopF g (dMeasure g st) st

/-- `for (const u of graph.keys()) dist.set(u, Infinity)`.  A `Map`'s
keys are distinct, so the loop is an entrywise map. -/
def initDist (g : Graph) : List (String × WithTop ℚ) :=
  g.map (fun p => (p.1, (⊤ : WithTop ℚ)))

/-- `for (const u of graph.keys()) prev.set(u, null)`. -/
def initPrev (g : Graph) : List (String × Option String) :=
  g.map (fun p => (p.1, none))

/-- `dijkstra(graph, source)`. -/
def dijkstra (g : Graph) (source : String) :
    Except String (List (String × WithTop ℚ) × List (String × Option String)) :=
  let dist := initDist g
  let prev := initPrev g
  if mapHas g source = false then
    .error ("Source \x27" ++ source ++ "\x27 not in graph.")
  else
    let dist := mapSet dist source ((0 : ℚ) : WithTop ℚ)
    let final := dijkstraLoop g { dist := dist, prev := prev, visited := [], pq := [((0 : ℚ), source)] }
    .ok (final.dist, final.prev)

/-! ## reconstructPath -/

/-- `prev.get(cur) ?? null`. -/
def prevStep (prev : List (String × Option String)) (cur : String) : Option String :=
  (mapGet prev cur).getD none

/-- The backward walk of `reconstructPath`, producing the `path` array
in push order (`target` first).  The JavaScript loop has no bound; the
explicit `fuel` counts loop iterations, and `none` means the bound was
reached (which `reconstructPath_total` below shows cannot happen within
`|graph| + 1` steps on the output of `dijkstra`). -/
def backWalk (prev : List (String × Option String)) : ℕ → String → Option (List String)
  | 0, _ => none
  | n + 1, cur =>
    match prevStep prev cur with
    | none => some [cur]
    | some u => (backWalk prev n u).map (fun l => cur :: l)

/-- `reconstructPath(prev, target)`: walk back, then `path.reverse()`. -/
def reconstructPath (prev : List (String × Option String)) (target : String) (fuel : ℕ) :
    Option (List String) :=
  (backWalk prev fuel target).map List.reverse

/-! ## extractNodes -/

/-- `Set.add` on an insertion-ordered list. -/
def setAdd (ns : List String) (x : String) : List String :=
  if x ∈ ns then ns else ns ++ [x]

/-- The node-collecting loop of `extractNodes`. -/
def collectNodes (ns : List String) (raw : String) : List String :=
  let line := trimStr raw
  if line = "" || startsWithHash line then ns
  else
    match tokenize line with
    | u :: v :: _ => setAdd (setAdd ns u) v
    | _ => ns

/-- `extractNodes(text)`: collect the first two fields of each usable
line into a `Set`, then `Array.from(nodes).sort()` — the default sort
compares strings lexicographically, and the collected list has no
duplicates, so any comparison sort gives the same result. -/
def extractNodes (text : String) : List String :=
  ((splitLines text).foldl collectNodes []).insertionSort strLe

/-! ## Specification-side notions: walks and path weights -/

/-- `edgeWeight g u v`: the weight of the directed edge `u → v`, i.e.
`graph.get(u)?.get(v)`. -/
def edgeWeight (g : Graph) (u v : String) : Option ℚ :=
  (mapGet g u).bind (fun adj => mapGet adj v)

/-- An edge sequence (walk) from `s` to `t` of total weight `w`,
built up edge by edge at the target end. -/
inductive Walk (g : Graph) (s : String) : String → ℚ → Prop
  | nil : Walk g s s 0
  | snoc {y t : String} {wyt d : ℚ} :
      Walk g s y d → edgeWeight g y t = some wyt → Walk g s t (d + wyt)

/-- `t` is reachable from `s` by some edge sequence. -/
def Reachable (g : Graph) (s t : String) : Prop :=
  ∃ w, Walk g s t w

/-- Summed weight of the consecutive edges of a node sequence; `none`
if some consecutive pair is not an edge. -/
def pathWeight (g : Graph) : List String → Option ℚ
  | [] => some 0
  | [_] => some 0
  | a :: b :: rest =>
    (edgeWeight g a b).bind (fun w => (pathWeight g (b :: rest)).map (fun r => w + r))

/-! ## Specification-side notions from the claims -/

/-- A line that the spec says `parseEdges` must reject: non-empty after
trimming, not a comment, and either fewer than 2 whitespace-separated
fields, or a third field that does not convert to a finite number ≥ 0. -/
def badLine (raw : String) : Prop :=
  ¬ (trimStr raw = "" ∨ startsWithHash (trimStr raw) = true) ∧
    ((tokenize (trimStr raw)).length < 2 ∨
      ∃ t, (tokenize (trimStr raw))[2]? = some t ∧ ¬ ∃ q, jsNumber t = some q ∧ 0 ≤ q)

/-- The error message `parseEdges` produces for a bad line; it carries the
line's trimmed text. -/
def badLineMsg (raw : String) : String :=
  if (tokenize (trimStr raw)).length < 2 then
    "Invalid edge line (need at least u v): " ++ trimStr raw
  else
    "Invalid weight at line: " ++ trimStr raw

/-- The `(u, v, w)` triple contributed by one raw line, if it is a valid
edge line (the per-line view of `processLine`'s success case). -/
def lineEdge (raw : String) : Option (String × String × ℚ) :=
  let line := trimStr raw
  if line = "" || startsWithHash line then none
  else
    match tokenize line with
    | u :: v :: rest =>
      match lineWeight rest with
      | none => none
      | some w => if w < 0 then none else some (u, v, w)
    | _ => none

/-- The sequence of edges parsed from the text, in input order. -/
def parsedEdges (text : String) : List (String × String × ℚ) :=
  (splitLines text).filterMap lineEdge

/-- The property of `x` being field 1 or field 2 of a usable line. -/
def nodeOnLine (raw x : String) : Prop :=
  ¬ (trimStr raw = "" ∨ startsWithHash (trimStr raw) = true) ∧
    2 ≤ (tokenize (trimStr raw)).length ∧
    ((tokenize (trimStr raw))[0]? = some x ∨ (tokenize (trimStr raw))[1]? = some x)

/-! ## Well-formedness of parsed graphs, and the main loop invariant -/

/-- The shape guarantees `parseEdges` gives its graphs: inner maps have
distinct keys (they model JavaScript `Map`s), every adjacency target is
itself a graph key (both endpoints are registered), and every stored
weight is non-negative (validated at parse time). -/
structure GoodGraph (g : Graph) : Prop where
  inner : ∀ p ∈ g, (p.2.map Prod.fst).Nodup
  closed : ∀ p ∈ g, ∀ e ∈ p.2, e.1 ∈ g.map Prod.fst
  nonneg : ∀ p ∈ g, ∀ e ∈ p.2, 0 ≤ e.2

/-- The invariant of `dijkstra`'s main loop, for graph `g` and source `s`. -/
structure Inv (g : Graph) (s : String) (st : DState) : Prop where
  keysD : st.dist.map Prod.fst = g.map Prod.fst
  keysP : st.prev.map Prod.fst = g.map Prod.fst
  visKeys : ∀ x ∈ st.visited, x ∈ g.map Prod.fst
  visNodup : st.visited.Nodup
  pqNonneg : ∀ e ∈ st.pq, 0 ≤ e.1
  pqKeys : ∀ e ∈ st.pq, e.2 ∈ g.map Prod.fst
  pqGe : ∀ e ∈ st.pq, distOf st.dist e.2 ≤ ((e.1 : ℚ) : WithTop ℚ)
  unvisPq : ∀ x, x ∉ st.visited → ∀ d : ℚ,
    distOf st.dist x = ((d : ℚ) : WithTop ℚ) → (d, x) ∈ st.pq
  srcDist : distOf st.dist s = ((0 : ℚ) : WithTop ℚ)
  srcPrev : prevStep st.prev s = none
  sound : ∀ x (d : ℚ), distOf st.dist x = ((d : ℚ) : WithTop ℚ) → Walk g s x d
  visMin : ∀ x ∈ st.visited, ∀ e ∈ st.pq, distOf st.dist x ≤ ((e.1 : ℚ) : WithTop ℚ)
  visTri : ∀ x ∈ st.visited, ∀ y w, edgeWeight g x y = some w →
    distOf st.dist y ≤ distOf st.dist x + ((w : ℚ) : WithTop ℚ)
  visFin : ∀ x ∈ st.visited, distOf st.dist x ≠ ⊤
  prevWalk : ∀ x u, prevStep st.prev x = some u → ∃ w, edgeWeight g u x = some w ∧
    distOf st.dist x = distOf st.dist u + ((w : ℚ) : WithTop ℚ) ∧ u ∈ st.visited
  prevIdx : ∀ x u, prevStep st.prev x = some u → x ∈ st.visited →
    st.visited.indexOf u < st.visited.indexOf x
  noPrevDist : ∀ x, x ≠ s → prevStep st.prev x = none → distOf st.dist x = ⊤

/-- The invariant holding throughout the relaxation fold of a freshly
visited node `uCur` popped with key `dCur`: everything from `Inv` except
that the triangle property is only guaranteed for previously visited
nodes, plus the facts about `uCur` needed to restore it. -/
structure RelaxInv (g : Graph) (s : String) (dCur : ℚ) (uCur : String) (st : DState) : Prop where
  keysD : st.dist.map Prod.fst = g.map Prod.fst
  keysP : st.prev.map Prod.fst = g.map Prod.fst
  visKeys : ∀ x ∈ st.visited, x ∈ g.map Prod.fst
  visNodup : st.visited.Nodup
  pqNonneg : ∀ e ∈ st.pq, 0 ≤ e.1
  pqKeys : ∀ e ∈ st.pq, e.2 ∈ g.map Prod.fst
  pqGe : ∀ e ∈ st.pq, distOf st.dist e.2 ≤ ((e.1 : ℚ) : WithTop ℚ)
  unvisPq : ∀ x, x ∉ st.visited → ∀ d : ℚ,
    distOf st.dist x = ((d : ℚ) : WithTop ℚ) → (d, x) ∈ st.pq
  srcDist : distOf st.dist s = ((0 : ℚ) : WithTop ℚ)
  srcPrev : prevStep st.prev s = none
  sound : ∀ x (d : ℚ), distOf st.dist x = ((d : ℚ) : WithTop ℚ) → Walk g s x d
  visMin : ∀ x ∈ st.visited, ∀ e ∈ st.pq, distOf st.dist x ≤ ((e.1 : ℚ) : WithTop ℚ)
  triOld : ∀ x ∈ st.visited, x ≠ uCur → ∀ y w, edgeWeight g x y = some w →
    distOf st.dist y ≤ distOf st.dist x + ((w : ℚ) : WithTop ℚ)
  visFin : ∀ x ∈ st.visited, distOf st.dist x ≠ ⊤
  prevWalk : ∀ x u, prevStep st.prev x = some u → ∃ w, edgeWeight g u x = some w ∧
    distOf st.dist x = distOf st.dist u + ((w : ℚ) : WithTop ℚ) ∧ u ∈ st.visited
  prevIdx : ∀ x u, prevStep st.prev x = some u → x ∈ st.visited →
    st.visited.indexOf u < st.visited.indexOf x
  noPrevDist : ∀ x, x ≠ s → prevStep st.prev x = none → distOf st.dist x = ⊤
  uVis : uCur ∈ st.visited
  uDist : distOf st.dist uCur = ((dCur : ℚ) : WithTop ℚ)
  dNonneg : 0 ≤ dCur
  visLe : ∀ x ∈ st.visited, distOf st.dist x ≤ ((dCur : ℚ) : WithTop ℚ)

/-! ## Concrete example runs (spec §8, scenario 1) used below -/

/-- The graph `parseEdges "A B 5\nB C 3" true` builds. -/
def gEx : Graph :=
  [("A", [("B", (5 : ℚ))]), ("B", [("A", (5 : ℚ)), ("C", (3 : ℚ))]), ("C", [("B", (3 : ℚ))])]

/-- The distance map `dijkstra gEx "A"` returns. -/
def distEx : List (String × WithTop ℚ) :=
  [("A", ((0 : ℚ) : WithTop ℚ)), ("B", ((5 : ℚ) : WithTop ℚ)), ("C", ((8 : ℚ) : WithTop ℚ))]

/-- The predecessor map `dijkstra gEx "A"` returns. -/
def prevEx : List (String × Option String) :=
  [("A", none), ("B", some "A"), ("C", some "B")]

/-! ## Theorems -/

/-! ## Basic lemmas about the `Map` model -/

theorem relaxOne_visited (dCur : ℚ) (u : String) (st : DState) (e : String × ℚ) :
    (relaxOne dCur u st e).visited = st.visited := by
  unfold relaxOne
  split <;> rfl

theorem relaxOne_pq_length (dCur : ℚ) (u : String) (st : DState) (e : String × ℚ) :
    (relaxOne dCur u st e).pq.length ≤ st.pq.length + 1 := by
  unfold relaxOne
  split <;> simp

theorem foldRelax_visited (dCur : ℚ) (u : String) (l : List (String × ℚ)) (st : DState) :
    (l.foldl (relaxOne dCur u) st).visited = st.visited := by
  induction l generalizing st with
  | nil => rfl
  | cons e t ih => simpa [List.foldl, relaxOne_visited] using ih (relaxOne dCur u st e)

theorem foldRelax_pq_length (dCur : ℚ) (u : String) (l : List (String × ℚ)) (st : DState) :
    (l.foldl (relaxOne dCur u) st).pq.length ≤ st.pq.length + l.length := by
  induction l generalizing st with
  | nil => simp
  | cons e t ih =>
    calc ((e :: t).foldl (relaxOne dCur u) st).pq.length
        = (t.foldl (relaxOne dCur u) (relaxOne dCur u st e)).pq.length := rfl
      _ ≤ (relaxOne dCur u st e).pq.length + t.length := ih _
      _ ≤ (st.pq.length + 1) + t.length := by
          exact Nat.add_le_add_right (relaxOne_pq_length dCur u st e) _
      _ = st.pq.length + (e :: t).length := by simp [Nat.add_assoc, Nat.add_comm 1]

theorem mapGet_mem {α : Type} {m : List (String × α)} {k : String} {v : α}
    (h : mapGet m k = some v) : (k, v) ∈ m := by
  induction m with
  | nil => simp [mapGet] at h
  | cons p rest ih =>
    obtain ⟨k', v'⟩ := p
    by_cases hk : k' = k
    · subst hk
      simp [mapGet] at h
      simp [h]
    · simp [mapGet, hk] at h
      exact List.mem_cons_of_mem _ (ih h)

theorem mapGet_eq_none_iff {α : Type} (m : List (String × α)) (k : String) :
    mapGet m k = none ↔ k ∉ m.map Prod.fst := by
  induction m with
  | nil => simp [mapGet]
  | cons p rest ih =>
    obtain ⟨k', v'⟩ := p
    by_cases hk : k' = k
    · subst hk
      simp [mapGet]
    · simp [mapGet, hk, ih, Ne.symm hk]

theorem getAdj_length_le_totalAdj (g : Graph) (u : String) :
    (getAdj g u).length ≤ totalAdj g := by
  unfold getAdj
  cases h : mapGet g u with
  | none => simp
  | some adj =>
    have hm : (u, adj) ∈ g := mapGet_mem h
    have : adj.length ∈ g.map (fun p => p.2.length) := by
      exact List.mem_map.mpr ⟨(u, adj), hm, rfl⟩
    simpa [totalAdj] using List.single_le_sum (by intro x _; exact Nat.zero_le x) _ this

theorem length_filter_mono {α : Type} (p q : α → Bool) (l : List α)
    (h : ∀ a ∈ l, p a = true → q a = true) :
    (l.filter p).length ≤ (l.filter q).length := by
  induction l with
  | nil => simp
  | cons a t ih =>
    have ht : ∀ x ∈ t, p x = true → q x = true :=
      fun x hx => h x (List.mem_cons_of_mem _ hx)
    by_cases hp : p a = true
    · have hq := h a (List.mem_cons_self a t) hp
      simpa [List.filter_cons, hp, hq] using ih ht
    · simp only [List.filter_cons, Bool.not_eq_true] at hp ⊢
      rw [hp]
      simp only [Bool.false_eq_true, if_false]
      by_cases hq : q a = true
      · rw [hq]
        simp only [if_true, List.length_cons]
        exact Nat.le_succ_of_le (ih ht)
      · simp only [Bool.not_eq_true] at hq
        rw [hq]
        simpa using ih ht

theorem unvisitedCount_append_le (g : Graph) (vis : List String) (u : String) :
    unvisitedCount g (vis ++ [u]) ≤ unvisitedCount g vis := by
  unfold unvisitedCount
  apply length_filter_mono
  intro k _ hk
  simp only [decide_eq_true_eq, List.mem_append, List.mem_singleton] at *
  tauto

theorem unvisitedCount_append_lt (g : Graph) (vis : List String) (u : String)
    (hu : u ∈ keysOf g) (hvis : u ∉ vis) :
    unvisitedCount g (vis ++ [u]) < unvisitedCount g vis := by
  unfold unvisitedCount
  have hsub : ∀ k ∈ keysOf g,
      (decide (k ∉ vis ++ [u]) = true) → (decide (k ∉ vis) = true) := by
    intro k _ hk
    simp only [decide_eq_true_eq, List.mem_append, List.mem_singleton] at *
    tauto
  have hmem : u ∈ (keysOf g).filter (fun k => decide (k ∉ vis)) := by
    simp [List.mem_filter, hu, hvis]
  -- the stronger filter omits `u`, which the weaker one keeps
  have h1 : ((keysOf g).filter (fun k => decide (k ∉ vis ++ [u]))).length
      = (((keysOf g).filter (fun k => decide (k ∉ vis))).filter
          (fun k => decide (k ≠ u))).length := by
    rw [List.filter_filter]
    congr 1
    apply List.filter_congr
    intro k _
    by_cases h1 : k ∈ vis <;> by_cases h2 : k = u <;> simp [h1, h2]
  rw [h1]
  apply List.length_filter_lt_length_iff_exists.mpr
  exact ⟨u, hmem, by simp⟩



theorem mapGet_mapSet_self {α : Type} (m : List (String × α)) (k : String) (v : α) :
    mapGet (mapSet m k v) k = some v := by
  induction m with
  | nil => simp [mapGet, mapSet]
  | cons p rest ih =>
    obtain ⟨k', v'⟩ := p
    by_cases hk : k' = k
    · subst hk
      simp [mapGet, mapSet]
    · simp [mapGet, mapSet, hk, ih]

theorem mapGet_mapSet_ne {α : Type} (m : List (String × α)) (k k' : String) (v : α)
    (h : k' ≠ k) : mapGet (mapSet m k v) k' = mapGet m k' := by
  have h' : ¬ k = k' := fun hh => h hh.symm
  induction m with
  | nil => simp [mapGet, mapSet, h']
  | cons p rest ih =>
    obtain ⟨a, b⟩ := p
    by_cases ha : a = k
    · subst ha
      simp [mapGet, mapSet, h']
    · simp only [mapSet, if_neg ha, mapGet]
      by_cases ha' : a = k'
      · simp [ha']
      · simp [ha', ih]

theorem mapSet_map_fst_of_mem {α : Type} (m : List (String × α)) (k : String) (v : α)
    (h : k ∈ m.map Prod.fst) : (mapSet m k v).map Prod.fst = m.map Prod.fst := by
  induction m with
  | nil => simp at h
  | cons p rest ih =>
    obtain ⟨a, b⟩ := p
    by_cases ha : a = k
    · subst ha
      simp [mapSet]
    · simp only [List.map_cons, List.mem_cons] at h
      rcases h with h | h

      · exact absurd h.symm ha
      · simp [mapSet, ha, ih h]

theorem mapHas_iff_mem {α : Type} (m : List (String × α)) (k : String) :
    mapHas m k = true ↔ k ∈ m.map Prod.fst := by
  unfold mapHas
  rw [Option.isSome_iff_ne_none]
  rw [ne_eq, mapGet_eq_none_iff]
  simp

theorem mapGet_map_snd {α β : Type} (m : List (String × α)) (f : α → β) (k : String) :
    mapGet (m.map (fun p => (p.1, f p.2))) k = (mapGet m k).map f := by
  induction m with
  | nil => simp [mapGet]
  | cons p rest ih =>
    obtain ⟨a, b⟩ := p
    by_cases ha : a = k
    · subst ha
      simp [mapGet]
    · simp [mapGet, ha, ih]

/-! ## C4: missing-source error -/

/-- C4: for a source that is not a graph key, `dijkstra` initialises the
distance/predecessor maps, then throws before its main loop starts:
the function's value is the `NotFoundError` message and nothing else
(in particular, no relaxation result is returned). -/
theorem dijkstra_missing_source (g : Graph) (source : String)
    (h : mapHas g source = false) :
    dijkstra g source = .error ("Source \x27" ++ source ++ "\x27 not in graph.") := by
  simp [dijkstra, h]

theorem dijkstra_missing_source_witness :
    mapHas [("A", [("B", (5 : ℚ))]), ("B", [("A", (5 : ℚ))])] "Z" = false ∧
      dijkstra [("A", [("B", (5 : ℚ))]), ("B", [("A", (5 : ℚ))])] "Z" =
        .error "Source \x27Z\x27 not in graph." :=
  ⟨by decide, dijkstra_missing_source _ "Z" (by decide)⟩

/-! ## C3: characterization of parse errors -/

theorem processLine_error_iff (undirected : Bool) (g : Graph) (raw : String) (e : String) :
    processLine undirected g raw = .error e ↔ badLine raw ∧ e = badLineMsg raw := by
  unfold processLine badLine badLineMsg
  by_cases hskip : trimStr raw = "" ∨ startsWithHash (trimStr raw) = true
  · have hb : (trimStr raw = "" || startsWithHash (trimStr raw)) = true := by
      rcases hskip with h | h <;> simp [h]
    simp [hb, hskip]
  · have hb : (trimStr raw = "" || startsWithHash (trimStr raw)) = false := by
      rcases not_or.mp hskip with ⟨h1, h2⟩
      simp [h1, h2]
    simp only [hb, Bool.false_eq_true, if_false]
    generalize tokenize (trimStr raw) = parts
    match parts with
    | [] =>
      simp only [List.length_nil, Nat.zero_lt_succ, if_true, Except.error.injEq]
      simp [hskip]
      exact eq_comm
    | [u] =>
      simp only [List.length_cons, List.length_nil, Except.error.injEq]
      simp [hskip]
      exact eq_comm
    | u :: v :: rest =>
      have hlen : ¬ (u :: v :: rest).length < 2 := by simp
      match rest with
      | [] =>
        simp only [lineWeight]
        have h1 : ¬ ((1 : ℚ) < 0) := by norm_num
        simp [hskip, h1]
      | t :: ts =>
        have hidx : (u :: v :: t :: ts)[2]? = some t := by simp
        simp only [lineWeight]
        match hq : jsNumber t with
        | none =>
          simp only [reduceCtorEq, and_false, exists_const, or_false]
          constructor
          · rintro h
            refine ⟨⟨hskip, Or.inr ⟨t, hidx, ?_⟩⟩, ?_⟩
            · rintro ⟨q, hq', _⟩
              rw [hq] at hq'
              exact absurd hq' (by simp)
            · cases h
              rw [if_neg hlen]
          · rintro ⟨_, he⟩
            rw [he, if_neg hlen]
        | some q =>
          by_cases hq0 : q < 0
          · have hnn : ¬ (0 : ℚ) ≤ q := not_le.mpr hq0
            simp only [hq0, if_true]
            constructor
            · rintro h
              refine ⟨⟨hskip, Or.inr ⟨t, hidx, ?_⟩⟩, ?_⟩
              · rintro ⟨q', hq', hq'0⟩
                rw [hq] at hq'
                cases hq'
                exact hnn hq'0
              · cases h
                rw [if_neg hlen]
            · rintro ⟨_, he⟩
              rw [he, if_neg hlen]
          · have hnn : (0 : ℚ) ≤ q := not_lt.mp hq0
            simp only [hq0, if_false, reduceCtorEq, false_iff, not_and, not_or]
            rintro ⟨_, hbad | hbad⟩ <;> intro _
            · exact absurd hbad hlen
            · obtain ⟨t', ht', hne⟩ := hbad
              rw [hidx] at ht'
              cases ht'
              exact hne ⟨q, hq, hnn⟩

theorem processLine_ok_of_not_bad (undirected : Bool) (g : Graph) (raw : String)
    (h : ¬ badLine raw) : ∃ g', processLine undirected g raw = .ok g' := by
  cases hres : processLine undirected g raw with
  | ok g' => exact ⟨g', rfl⟩
  | error e => exact absurd ((processLine_error_iff undirected g raw e).mp hres).1 h

theorem foldProcess_error_iff (undirected : Bool) (lines : List String) (g0 : Graph) :
    ((∃ e, lines.foldlM (processLine undirected) g0 = .error e) ↔
        ∃ raw ∈ lines, badLine raw) ∧
      (∀ e, lines.foldlM (processLine undirected) g0 = .error e →
        ∃ raw ∈ lines, badLine raw ∧ e = badLineMsg raw) := by
  induction lines generalizing g0 with
  | nil =>
    constructor
    · simp only [List.foldlM_nil, List.not_mem_nil]
      constructor
      · rintro ⟨e, he⟩
        exact absurd he (by simp [pure, Except.pure])
      · rintro ⟨_, h, _⟩
        exact h.elim
    · intro e he
      exact absurd he (by simp [pure, Except.pure])
  | cons raw rest ih =>
    by_cases hbad : badLine raw
    · have herr : processLine undirected g0 raw = .error (badLineMsg raw) :=
        (processLine_error_iff undirected g0 raw _).mpr ⟨hbad, rfl⟩
      have hfold : (raw :: rest).foldlM (processLine undirected) g0
          = .error (badLineMsg raw) := by
        rw [List.foldlM_cons, herr]
        rfl
      rw [hfold]
      constructor
      · constructor
        · intro _
          exact ⟨raw, List.mem_cons_self raw rest, hbad⟩
        · intro _
          exact ⟨badLineMsg raw, rfl⟩
      · intro e he
        cases he
        exact ⟨raw, List.mem_cons_self raw rest, hbad, rfl⟩
    · obtain ⟨g1, hok⟩ := processLine_ok_of_not_bad undirected g0 raw hbad
      have hfold : (raw :: rest).foldlM (processLine undirected) g0
          = rest.foldlM (processLine undirected) g1 := by
        rw [List.foldlM_cons, hok]
        rfl
      rw [hfold]
      obtain ⟨ih1, ih2⟩ := ih g1
      constructor
      · rw [ih1]
        constructor
        · rintro ⟨r, hr, hb⟩
          exact ⟨r, List.mem_cons_of_mem _ hr, hb⟩
        · rintro ⟨r, hr, hb⟩
          rcases List.mem_cons.mp hr with rfl | hr'
          · exact absurd hb hbad
          · exact ⟨r, hr', hb⟩
      · intro e he
        obtain ⟨r, hr, hb, hmsg⟩ := ih2 e he
        exact ⟨r, List.mem_cons_of_mem _ hr, hb, hmsg⟩

/-- C3: `parseEdges` throws exactly when some line is bad in the spec's sense
(fewer than 2 fields, or an unparsable/negative weight), and the error it
throws is the corresponding message carrying the offending line's trimmed
text.  No graph is returned in that case: the `Except` value is the error
alone, so the whole query aborts with no partial graph. -/
theorem parseEdges_error_characterization (text : String) (undirected : Bool) :
    ((∃ e, parseEdges text undirected = .error e) ↔
        ∃ raw ∈ splitLines text, badLine raw) ∧
      (∀ e, parseEdges text undirected = .error e →
        ∃ raw ∈ splitLines text, badLine raw ∧ e = badLineMsg raw) :=
  foldProcess_error_iff undirected (splitLines text) []

theorem parseEdges_error_characterization_witness :
    (∃ e, parseEdges "A B 5\nQ\nC D x" true = .error e) ∧
      (∃ raw ∈ splitLines "A B 5\nQ\nC D x", badLine raw ∧
        "Invalid edge line (need at least u v): Q" = badLineMsg raw) := by
  have h := parseEdges_error_characterization "A B 5\nQ\nC D x" true
  have herr : parseEdges "A B 5\nQ\nC D x" true
      = .error "Invalid edge line (need at least u v): Q" := by rfl
  exact ⟨⟨_, herr⟩, h.2 _ herr⟩

/-! ## C6: a missing weight field defaults to exactly 1 -/

theorem tokenize_empty : tokenize "" = [] := rfl

theorem processLine_of_tokens_two (undirected : Bool) (g : Graph) (l u v : String)
    (ht : tokenize (trimStr l) = [u, v])
    (hh : startsWithHash (trimStr l) = false) :
    processLine undirected g l = .ok (addEdge g u v 1 undirected) := by
  have hne : ¬ trimStr l = "" := by
    intro h
    rw [h, tokenize_empty] at ht
    cases ht
  unfold processLine
  simp only [hne, hh, decide_False, Bool.or_false, Bool.false_eq_true, if_false, ht, lineWeight]
  have h1 : ¬ ((1 : ℚ) < 0) := by norm_num
  simp [h1]

theorem processLine_of_tokens_three_one (undirected : Bool) (g : Graph) (l u v : String)
    (ht : tokenize (trimStr l) = [u, v, "1"])
    (hh : startsWithHash (trimStr l) = false) :
    processLine undirected g l = .ok (addEdge g u v 1 undirected) := by
  have hne : ¬ trimStr l = "" := by
    intro h
    rw [h, tokenize_empty] at ht
    cases ht
  unfold processLine
  have hw : jsNumber "1" = some 1 := by with_unfolding_all rfl
  simp only [hne, hh, decide_False, Bool.or_false, Bool.false_eq_true, if_false, ht,
    lineWeight, hw]
  have h1 : ¬ ((1 : ℚ) < 0) := by norm_num
  simp [h1]

/-- C6: a valid edge line with two fields is treated exactly as the same
line with an explicit third field `1`: substituting one for the other
anywhere in the input yields the same parse result (same graph or same
error). -/
theorem parseEdges_default_weight (undirected : Bool) (text1 text2 : String)
    (pre post : List String) (l1 l2 u v : String)
    (h1 : splitLines text1 = pre ++ l1 :: post)
    (h2 : splitLines text2 = pre ++ l2 :: post)
    (ht1 : tokenize (trimStr l1) = [u, v])
    (ht2 : tokenize (trimStr l2) = [u, v, "1"])
    (hh1 : startsWithHash (trimStr l1) = false)
    (hh2 : startsWithHash (trimStr l2) = false) :
    parseEdges text1 undirected = parseEdges text2 undirected := by
  unfold parseEdges
  rw [h1, h2, List.foldlM_append, List.foldlM_append]
  have hmid : ∀ g : Graph,
      (l1 :: post).foldlM (processLine undirected) g
        = (l2 :: post).foldlM (processLine undirected) g := by
    intro g
    rw [List.foldlM_cons, List.foldlM_cons,
      processLine_of_tokens_two undirected g l1 u v ht1 hh1,
      processLine_of_tokens_three_one undirected g l2 u v ht2 hh2]
  cases hpre : pre.foldlM (processLine undirected) ([] : Graph) with
  | error e => rfl
  | ok gmid => simpa using hmid gmid

theorem parseEdges_default_weight_witness :
    parseEdges "A B" true = parseEdges "A B 1" true ∧
      parseEdges "A B" true = .ok [("A", [("B", (1 : ℚ))]), ("B", [("A", (1 : ℚ))])] :=
  ⟨parseEdges_default_weight true "A B" "A B 1" [] [] "A B" "A B 1" "A" "B"
      (by with_unfolding_all rfl) (by with_unfolding_all rfl)
      (by with_unfolding_all rfl) (by with_unfolding_all rfl)
      (by with_unfolding_all rfl) (by with_unfolding_all rfl),
    by with_unfolding_all rfl⟩

/-! ## C5: undirected insertion -/

theorem processLine_ok_cases (undirected : Bool) (g g' : Graph) (raw : String)
    (h : processLine undirected g raw = .ok g') :
    (lineEdge raw = none ∧ g' = g) ∨
      ∃ u v w, lineEdge raw = some (u, v, w) ∧ g' = addEdge g u v w undirected := by
  unfold processLine at h
  unfold lineEdge
  by_cases hskip : (trimStr raw = "" || startsWithHash (trimStr raw)) = true
  · simp only [hskip, if_true] at h ⊢
    cases h
    exact Or.inl ⟨trivial, rfl⟩
  · rw [Bool.not_eq_true] at hskip
    simp only [hskip, Bool.false_eq_true, if_false] at h ⊢
    match htok : tokenize (trimStr raw) with
    | [] =>
      rw [htok] at h
      exact Except.noConfusion h
    | [u] =>
      rw [htok] at h
      exact Except.noConfusion h
    | u :: v :: rest =>
      rw [htok] at h
      dsimp only at h ⊢
      match hw : lineWeight rest with
      | none =>
        rw [hw] at h
        exact Except.noConfusion h
      | some w =>
        rw [hw] at h
        dsimp only at h ⊢
        by_cases hw0 : w < 0
        · rw [if_pos hw0] at h
          exact Except.noConfusion h
        · rw [if_neg hw0] at h
          cases h
          exact Or.inr ⟨u, v, w, by rw [if_neg hw0], rfl⟩

theorem foldProcess_ok_foldl (undirected : Bool) (lines : List String) :
    ∀ (g0 g : Graph), lines.foldlM (processLine undirected) g0 = .ok g →
      g = (lines.filterMap lineEdge).foldl
        (fun h e => addEdge h e.1 e.2.1 e.2.2 undirected) g0 := by
  induction lines with
  | nil =>
    intro g0 g h
    simp only [List.foldlM_nil] at h
    cases h
    rfl
  | cons raw rest ih =>
    intro g0 g h
    rw [List.foldlM_cons] at h
    cases hp : processLine undirected g0 raw with
    | error e =>
      rw [hp] at h
      exact absurd h (by simp [Bind.bind, Except.bind])
    | ok g1 =>
      rw [hp] at h
      have h' : rest.foldlM (processLine undirected) g1 = .ok g := h
      rcases processLine_ok_cases undirected g0 g1 raw hp with ⟨hnone, heq⟩ | ⟨u, v, w, hsome, heq⟩
      · rw [List.filterMap_cons_none hnone]
        rw [heq] at h'
        exact ih g0 g h'
      · rw [List.filterMap_cons_some hsome, List.foldl_cons]
        rw [heq] at h'
        exact ih _ g h'

theorem parseEdges_eq_foldl_addEdge (text : String) (undirected : Bool) (g : Graph)
    (h : parseEdges text undirected = .ok g) :
    g = (parsedEdges text).foldl
      (fun h e => addEdge h e.1 e.2.1 e.2.2 undirected) [] :=
  foldProcess_ok_foldl undirected (splitLines text) [] g h

theorem mapGet_ensure_self (g : Graph) (u : String) :
    mapGet (ensure g u) u = some (getAdj g u) := by
  unfold ensure getAdj mapHas
  cases h : mapGet g u with
  | none => simp [h, mapGet_mapSet_self]
  | some adj => simp [h]

theorem mapGet_ensure_ne (g : Graph) (u x : String) (h : x ≠ u) :
    mapGet (ensure g u) x = mapGet g x := by
  unfold ensure
  cases mapHas g u with
  | true => rfl
  | false => simp [mapGet_mapSet_ne g u x _ h]

theorem edgeWeight_ensure (g : Graph) (c x y : String) :
    edgeWeight (ensure g c) x y = edgeWeight g x y := by
  unfold edgeWeight
  by_cases hx : x = c
  · subst hx
    rw [mapGet_ensure_self]
    cases h : mapGet g x with
    | none => simp [h, getAdj, mapGet]
    | some adj => simp [h, getAdj]
  · rw [mapGet_ensure_ne g c x hx]

theorem edgeWeight_mapSet_outer_ne (g : Graph) (a x y : String) (adj : Adjacency)
    (h : x ≠ a) : edgeWeight (mapSet g a adj) x y = edgeWeight g x y := by
  unfold edgeWeight
  rw [mapGet_mapSet_ne g a x adj h]

theorem edgeWeight_mapSet_outer_self (g : Graph) (a y : String) (adj : Adjacency) :
    edgeWeight (mapSet g a adj) a y = mapGet adj y := by
  unfold edgeWeight
  rw [mapGet_mapSet_self]
  rfl

theorem mapGet_getAdj (g : Graph) (a y : String) :
    mapGet (getAdj g a) y = edgeWeight g a y := by
  unfold edgeWeight getAdj
  cases h : mapGet g a with
  | none => simp [mapGet]
  | some adj => simp

/-- An `addEdge` whose (unordered, for the undirected flag) endpoint pair
differs from `(x, y)` leaves `graph[x][y]` unchanged. -/
theorem edgeWeight_addEdge_other (g : Graph) (a b x y : String) (w : ℚ)
    (h1 : ¬ (a = x ∧ b = y)) (h2 : ¬ (a = y ∧ b = x)) :
    edgeWeight (addEdge g a b w true) x y = edgeWeight g x y := by
  have e1 : edgeWeight (ensure (ensure g a) b) x y = edgeWeight g x y := by
    rw [edgeWeight_ensure, edgeWeight_ensure]
  have e2 : edgeWeight (mapSet (ensure (ensure g a) b) a
      (mapSet (getAdj (ensure (ensure g a) b) a) b w)) x y = edgeWeight g x y := by
    by_cases hx : x = a
    · subst hx
      have hb : y ≠ b := fun hyb => h1 ⟨rfl, hyb.symm⟩
      rw [edgeWeight_mapSet_outer_self, mapGet_mapSet_ne _ b y _ hb, mapGet_getAdj]
      exact e1
    · rw [edgeWeight_mapSet_outer_ne _ a x y _ hx]
      exact e1
  show edgeWeight (addEdge g a b w true) x y = edgeWeight g x y
  unfold addEdge
  simp only [if_true]
  by_cases hx : x = b
  · subst hx
    have ha : y ≠ a := fun hya => h2 ⟨hya.symm, rfl⟩
    rw [edgeWeight_mapSet_outer_self, mapGet_mapSet_ne _ a y _ ha, mapGet_getAdj]
    exact e2
  · rw [edgeWeight_mapSet_outer_ne _ b x y _ hx]
    exact e2

/-- After an undirected `addEdge g u v w`, both `graph[u][v]` and
`graph[v][u]` hold `w`. -/
theorem edgeWeight_addEdge_self (g : Graph) (u v : String) (w : ℚ) :
    edgeWeight (addEdge g u v w true) u v = some w ∧
      edgeWeight (addEdge g u v w true) v u = some w := by
  unfold addEdge
  simp only [if_true]
  constructor
  · by_cases huv : u = v
    · subst huv
      rw [edgeWeight_mapSet_outer_self, mapGet_mapSet_self]
    · rw [edgeWeight_mapSet_outer_ne _ v u v _ huv,
        edgeWeight_mapSet_outer_self, mapGet_mapSet_self]
  · rw [edgeWeight_mapSet_outer_self, mapGet_mapSet_self]

/-- Edges whose unordered endpoint pair differs from `{u, v}` never
disturb the two directed entries for `{u, v}`. -/
theorem foldl_addEdge_untouched (es : List (String × String × ℚ)) :
    ∀ (g : Graph) (u v : String) (w : ℚ),
      (∀ e ∈ es, ¬ ((e.1 = u ∧ e.2.1 = v) ∨ (e.1 = v ∧ e.2.1 = u))) →
      edgeWeight g u v = some w → edgeWeight g v u = some w →
      edgeWeight (es.foldl (fun h e => addEdge h e.1 e.2.1 e.2.2 true) g) u v = some w ∧
        edgeWeight (es.foldl (fun h e => addEdge h e.1 e.2.1 e.2.2 true) g) v u = some w := by
  induction es with
  | nil =>
    intro g u v w _ h1 h2
    exact ⟨h1, h2⟩
  | cons e es ih =>
    intro g u v w hlast h1 h2
    rw [List.foldl_cons]
    have he := hlast e (List.mem_cons_self e es)
    have hn1 : ¬ (e.1 = u ∧ e.2.1 = v) := fun hx => he (Or.inl hx)
    have hn2 : ¬ (e.1 = v ∧ e.2.1 = u) := fun hx => he (Or.inr hx)
    refine ih _ u v w (fun e' he' => hlast e' (List.mem_cons_of_mem _ he')) ?_ ?_
    · rw [edgeWeight_addEdge_other _ _ _ u v _ hn1 hn2]
      exact h1
    · rw [edgeWeight_addEdge_other _ _ _ v u _ hn2 hn1]
      exact h2

/-- C5 as frozen is falsified by duplicate pairs: in
`"A B 5\nA B 7"` the edge `(A, B, 5)` is parsed, yet the final graph
holds weight `7` for both directions (last write wins). -/
theorem parseEdges_undirected_per_edge_cex :
    parseEdges "A B 5\nA B 7" true = .ok [("A", [("B", (7 : ℚ))]), ("B", [("A", (7 : ℚ))])] ∧
      ("A", "B", (5 : ℚ)) ∈ parsedEdges "A B 5\nA B 7" ∧
      edgeWeight [("A", [("B", (7 : ℚ))]), ("B", [("A", (7 : ℚ))])] "A" "B" = some 7 ∧
      ¬ ((7 : ℚ) = 5) := by
  refine ⟨by with_unfolding_all rfl, ?_, by with_unfolding_all rfl, by norm_num⟩
  have : parsedEdges "A B 5\nA B 7" = [("A", "B", (5 : ℚ)), ("A", "B", (7 : ℚ))] := by
    with_unfolding_all rfl
  rw [this]
  exact List.mem_cons_self _ _

/-- C5 amended: with the undirected flag set, for every parsed edge
`(u, v, w)` such that no later parsed edge has the same unordered
endpoint pair `{u, v}`, the resulting graph has `graph[u][v] = w` and
`graph[v][u] = w` (last write wins when the pair repeats). -/
theorem parseEdges_undirected_symmetric (text : String) (g : Graph)
    (u v : String) (w : ℚ) (es1 es2 : List (String × String × ℚ))
    (hok : parseEdges text true = .ok g)
    (hsplit : parsedEdges text = es1 ++ (u, v, w) :: es2)
    (hlast : ∀ e ∈ es2, ¬ ((e.1 = u ∧ e.2.1 = v) ∨ (e.1 = v ∧ e.2.1 = u))) :
    edgeWeight g u v = some w ∧ edgeWeight g v u = some w := by
  have hfold := parseEdges_eq_foldl_addEdge text true g hok
  rw [hsplit, List.foldl_append, List.foldl_cons] at hfold
  subst hfold
  have hbase := edgeWeight_addEdge_self
    (es1.foldl (fun h e => addEdge h e.1 e.2.1 e.2.2 true) []) u v w
  exact foldl_addEdge_untouched es2 _ u v w hlast hbase.1 hbase.2

theorem parseEdges_undirected_symmetric_witness :
    parseEdges "A B 5\nB C 3" true
        = .ok [("A", [("B", (5 : ℚ))]), ("B", [("A", (5 : ℚ)), ("C", (3 : ℚ))]),
            ("C", [("B", (3 : ℚ))])] ∧
      edgeWeight [("A", [("B", (5 : ℚ))]), ("B", [("A", (5 : ℚ)), ("C", (3 : ℚ))]),
          ("C", [("B", (3 : ℚ))])] "A" "B" = some 5 ∧
      edgeWeight [("A", [("B", (5 : ℚ))]), ("B", [("A", (5 : ℚ)), ("C", (3 : ℚ))]),
          ("C", [("B", (3 : ℚ))])] "B" "A" = some 5 := by
  have hok : parseEdges "A B 5\nB C 3" true
      = .ok [("A", [("B", (5 : ℚ))]), ("B", [("A", (5 : ℚ)), ("C", (3 : ℚ))]),
          ("C", [("B", (3 : ℚ))])] := by with_unfolding_all rfl
  have hsplit : parsedEdges "A B 5\nB C 3"
      = [] ++ ("A", "B", (5 : ℚ)) :: [("B", "C", (3 : ℚ))] := by with_unfolding_all rfl
  have h := parseEdges_undirected_symmetric "A B 5\nB C 3" _ "A" "B" 5 [] [("B", "C", (3 : ℚ))]
    hok hsplit (by intro e he; simp at he; rw [he]; simp)
  exact ⟨hok, h.1, h.2⟩

/-! ## C7: extractNodes -/

theorem charListLe_iff_not_lex :
    ∀ (as bs : List Char), charListLe as bs = true ↔ ¬ List.Lex (· < ·) bs as := by
  intro as
  induction as with
  | nil =>
    intro bs
    simp only [charListLe, true_iff]
    intro h
    cases h
  | cons a as ih =>
    intro bs
    cases bs with
    | nil =>
      simp only [charListLe, Bool.false_eq_true, false_iff, not_not]
      exact List.Lex.nil
    | cons b bs =>
      by_cases hab : a < b
      · have hba : ¬ b < a := lt_asymm hab
        simp only [charListLe, hab, if_true, true_iff]
        intro h
        cases h with
        | cons h' => exact absurd hab (lt_irrefl _)
        | rel h' => exact hba h'
      · by_cases hba : b < a
        · simp only [charListLe, hab, if_false, hba, if_true, Bool.false_eq_true, false_iff,
            not_not]
          exact List.Lex.rel hba
        · have heq : a = b := le_antisymm (not_lt.mp hba) (not_lt.mp hab)
          subst heq
          simp only [charListLe, hab, hba, if_false]
          rw [ih bs]
          constructor
          · intro hn h
            cases h with
            | cons h' => exact hn h'
            | rel h' => exact hba h'
          · intro hn h
            exact hn (List.Lex.cons h)

theorem strLe_iff_le (a b : String) : strLe a b ↔ a ≤ b := by
  rw [String.le_iff_toList_le, ← not_lt]
  constructor
  · intro h hlt
    exact (charListLe_iff_not_lex a.data b.data).mp h hlt
  · intro h
    exact (charListLe_iff_not_lex a.data b.data).mpr h

theorem strLe_total (a b : String) : strLe a b ∨ strLe b a := by
  rw [strLe_iff_le, strLe_iff_le]
  exact le_total a b

theorem strLe_trans {a b c : String} (hab : strLe a b) (hbc : strLe b c) : strLe a c := by
  rw [strLe_iff_le] at hab hbc ⊢
  exact le_trans hab hbc

theorem setAdd_mem (ns : List String) (x y : String) :
    y ∈ setAdd ns x ↔ y ∈ ns ∨ y = x := by
  unfold setAdd
  by_cases h : x ∈ ns
  · simp only [h, if_true]
    constructor
    · exact Or.inl
    · rintro (hy | rfl) <;> assumption
  · simp [h]

theorem setAdd_nodup (ns : List String) (x : String) (h : ns.Nodup) :
    (setAdd ns x).Nodup := by
  unfold setAdd
  by_cases hx : x ∈ ns
  · simpa [hx]
  · simp [hx, List.nodup_append, h]

theorem collectNodes_mem (ns : List String) (raw x : String) :
    x ∈ collectNodes ns raw ↔ x ∈ ns ∨ nodeOnLine raw x := by
  unfold collectNodes nodeOnLine
  by_cases hskip : trimStr raw = "" ∨ startsWithHash (trimStr raw) = true
  · have hb : (trimStr raw = "" || startsWithHash (trimStr raw)) = true := by
      rcases hskip with h | h <;> simp [h]
    simp [hb, hskip]
  · have hb : (trimStr raw = "" || startsWithHash (trimStr raw)) = false := by
      rcases not_or.mp hskip with ⟨h1, h2⟩
      simp [h1, h2]
    simp only [hb, Bool.false_eq_true, if_false]
    match htok : tokenize (trimStr raw) with
    | [] => simp [hskip]
    | [u] => simp [hskip]
    | u :: v :: rest =>
      rw [setAdd_mem, setAdd_mem]
      simp only [List.length_cons, List.getElem?_cons_zero, List.getElem?_cons_succ,
        Option.some.injEq]
      constructor
      · rintro ((h | rfl) | rfl)
        · exact Or.inl h
        · exact Or.inr ⟨hskip, by omega, Or.inl rfl⟩
        · exact Or.inr ⟨hskip, by omega, Or.inr rfl⟩
      · rintro (h | ⟨_, _, rfl | rfl⟩)
        · exact Or.inl (Or.inl h)
        · exact Or.inl (Or.inr rfl)
        · exact Or.inr rfl

theorem collectNodes_nodup (ns : List String) (raw : String) (h : ns.Nodup) :
    (collectNodes ns raw).Nodup := by
  unfold collectNodes
  by_cases hb : (trimStr raw = "" || startsWithHash (trimStr raw)) = true
  · simpa [hb]
  · rw [Bool.not_eq_true] at hb
    simp only [hb, Bool.false_eq_true, if_false]
    match tokenize (trimStr raw) with
    | [] => exact h
    | [u] => exact h
    | u :: v :: rest => exact setAdd_nodup _ _ (setAdd_nodup _ _ h)

theorem foldCollect_mem (lines : List String) :
    ∀ (ns : List String) (x : String),
      x ∈ lines.foldl collectNodes ns ↔ x ∈ ns ∨ ∃ raw ∈ lines, nodeOnLine raw x := by
  induction lines with
  | nil => simp
  | cons raw rest ih =>
    intro ns x
    rw [List.foldl_cons, ih, collectNodes_mem]
    constructor
    · rintro ((h | h) | ⟨r, hr, hn⟩)
      · exact Or.inl h
      · exact Or.inr ⟨raw, List.mem_cons_self raw rest, h⟩
      · exact Or.inr ⟨r, List.mem_cons_of_mem _ hr, hn⟩
    · rintro (h | ⟨r, hr, hn⟩)
      · exact Or.inl (Or.inl h)
      · rcases List.mem_cons.mp hr with rfl | hr'
        · exact Or.inl (Or.inr hn)
        · exact Or.inr ⟨r, hr', hn⟩

theorem foldCollect_nodup (lines : List String) :
    ∀ ns : List String, ns.Nodup → (lines.foldl collectNodes ns).Nodup := by
  induction lines with
  | nil => exact fun ns h => h
  | cons raw rest ih =>
    intro ns h
    rw [List.foldl_cons]
    exact ih _ (collectNodes_nodup ns raw h)

/-- C7: `extractNodes` returns the strictly increasing (lexicographic,
duplicate-free) enumeration of the identifiers occurring as field 1 or
field 2 of a usable line; it is total — in particular a malformed weight
field on some line does not disturb it, since membership depends only on
the first two tokens of each line. -/
theorem extractNodes_characterization (text : String) :
    (extractNodes text).Sorted (· < ·) ∧
      ∀ x, x ∈ extractNodes text ↔ ∃ raw ∈ splitLines text, nodeOnLine raw x := by
  have hperm := List.perm_insertionSort strLe ((splitLines text).foldl collectNodes [])
  have hnodup : (extractNodes text).Nodup := by
    unfold extractNodes
    exact hperm.nodup_iff.mpr (foldCollect_nodup (splitLines text) [] List.nodup_nil)
  haveI : IsTotal String strLe := ⟨strLe_total⟩
  haveI : IsTrans String strLe := ⟨fun _ _ _ => strLe_trans⟩
  have hsorted : (extractNodes text).Sorted strLe :=
    List.sorted_insertionSort strLe ((splitLines text).foldl collectNodes [])
  have hsorted' : (extractNodes text).Sorted (· ≤ ·) :=
    hsorted.imp (fun h => (strLe_iff_le _ _).mp h)
  refine ⟨hsorted'.lt_of_le hnodup, fun x => ?_⟩
  unfold extractNodes
  rw [hperm.mem_iff, foldCollect_mem]
  simp

theorem extractNodes_characterization_witness :
    extractNodes "B A 5\nA C x\nZ\n# c\nD E" = ["A", "B", "C", "D", "E"] ∧
      (("A" : String) ∈ extractNodes "B A 5\nA C x\nZ\n# c\nD E" ↔
        ∃ raw ∈ splitLines "B A 5\nA C x\nZ\n# c\nD E", nodeOnLine raw "A") :=
  ⟨by with_unfolding_all rfl,
    (extractNodes_characterization "B A 5\nA C x\nZ\n# c\nD E").2 "A"⟩

/-! ## parseEdges produces well-formed graphs -/

theorem mem_mapSet_elim {α : Type} {m : List (String × α)} {k : String} {v : α}
    {p : String × α} (h : p ∈ mapSet m k v) : p = (k, v) ∨ p ∈ m := by
  induction m with
  | nil => simpa [mapSet] using h
  | cons q rest ih =>
    obtain ⟨a, b⟩ := q
    by_cases ha : a = k
    · subst ha
      rcases List.mem_cons.mp (by simpa [mapSet] using h) with h' | h'
      · exact Or.inl (by simpa using h')
      · exact Or.inr (List.mem_cons_of_mem _ h')
    · rcases List.mem_cons.mp (by simpa [mapSet, ha] using h) with h' | h'
      · exact Or.inr (by simp [h'])
      · rcases ih h' with h'' | h''
        · exact Or.inl h''
        · exact Or.inr (List.mem_cons_of_mem _ h'')

theorem keys_subset_mapSet {α : Type} (m : List (String × α)) (k : String) (v : α) :
    m.map Prod.fst ⊆ (mapSet m k v).map Prod.fst := by
  induction m with
  | nil => simp
  | cons q rest ih =>
    obtain ⟨a, b⟩ := q
    by_cases ha : a = k
    · subst ha
      simp [mapSet]
    · simp only [mapSet, if_neg ha, List.map_cons]
      exact List.cons_subset_cons _ ih

theorem key_mem_mapSet {α : Type} (m : List (String × α)) (k : String) (v : α) :
    k ∈ (mapSet m k v).map Prod.fst := by
  induction m with
  | nil => simp [mapSet]
  | cons q rest ih =>
    obtain ⟨a, b⟩ := q
    by_cases ha : a = k
    · subst ha
      simp [mapSet]
    · simp only [mapSet, if_neg ha, List.map_cons, List.mem_cons]
      exact Or.inr ih

theorem mapSet_map_fst_of_not_mem {α : Type} (m : List (String × α)) (k : String) (v : α)
    (h : k ∉ m.map Prod.fst) : (mapSet m k v).map Prod.fst = m.map Prod.fst ++ [k] := by
  induction m with
  | nil => simp [mapSet]
  | cons q rest ih =>
    obtain ⟨a, b⟩ := q
    simp only [List.map_cons, List.mem_cons] at h
    push_neg at h
    simp only [mapSet, if_neg (Ne.symm h.1), List.map_cons, List.cons_append,
      List.cons.injEq, true_and]
    exact ih h.2

theorem mapSet_nodup_keys {α : Type} (m : List (String × α)) (k : String) (v : α)
    (h : (m.map Prod.fst).Nodup) : ((mapSet m k v).map Prod.fst).Nodup := by
  by_cases hk : k ∈ m.map Prod.fst
  · rw [mapSet_map_fst_of_mem m k v hk]
    exact h
  · rw [mapSet_map_fst_of_not_mem m k v hk]
    simp [List.nodup_append, h, hk]

theorem mem_ensure_elim {g : Graph} {u : String} {p : String × Adjacency}
    (h : p ∈ ensure g u) : p = (u, []) ∨ p ∈ g := by
  unfold ensure at h
  by_cases hu : mapHas g u
  · rw [if_pos hu] at h
    exact Or.inr h
  · rw [if_neg hu] at h
    exact mem_mapSet_elim h

theorem keys_subset_ensure (g : Graph) (u : String) :
    g.map Prod.fst ⊆ (ensure g u).map Prod.fst := by
  unfold ensure
  by_cases hu : mapHas g u
  · rw [if_pos hu]
    exact List.Subset.refl _
  · rw [if_neg hu]
    exact keys_subset_mapSet g u []

theorem key_mem_ensure (g : Graph) (u : String) : u ∈ (ensure g u).map Prod.fst := by
  unfold ensure
  by_cases hu : mapHas g u
  · rw [if_pos hu]
    exact (mapHas_iff_mem g u).mp hu
  · rw [if_neg hu]
    exact key_mem_mapSet g u []

theorem goodGraph_ensure (g : Graph) (u : String) (hg : GoodGraph g) :
    GoodGraph (ensure g u) := by
  constructor
  · intro p hp
    rcases mem_ensure_elim hp with rfl | hp'
    · simp
    · exact hg.inner p hp'
  · intro p hp e he
    rcases mem_ensure_elim hp with rfl | hp'
    · simp at he
    · exact keys_subset_ensure g u (hg.closed p hp' e he)
  · intro p hp e he
    rcases mem_ensure_elim hp with rfl | hp'
    · simp at he
    · exact hg.nonneg p hp' e he

theorem goodGraph_mapSet (g : Graph) (u : String) (adj : Adjacency) (hg : GoodGraph g)
    (hnodup : (adj.map Prod.fst).Nodup)
    (hclosed : ∀ e ∈ adj, e.1 ∈ (mapSet g u adj).map Prod.fst)
    (hnn : ∀ e ∈ adj, 0 ≤ e.2) : GoodGraph (mapSet g u adj) := by
  constructor
  · intro p hp
    rcases mem_mapSet_elim hp with rfl | hp'
    · exact hnodup
    · exact hg.inner p hp'
  · intro p hp e he
    rcases mem_mapSet_elim hp with rfl | hp'
    · exact hclosed e he
    · exact keys_subset_mapSet g u adj (hg.closed p hp' e he)
  · intro p hp e he
    rcases mem_mapSet_elim hp with rfl | hp'
    · exact hnn e he
    · exact hg.nonneg p hp' e he

theorem getAdj_facts (g : Graph) (u : String) (hg : GoodGraph g) :
    ((getAdj g u).map Prod.fst).Nodup ∧
      (∀ e ∈ getAdj g u, e.1 ∈ g.map Prod.fst ∧ 0 ≤ e.2) := by
  unfold getAdj
  cases h : mapGet g u with
  | none => simp
  | some adj =>
    have hm : (u, adj) ∈ g := mapGet_mem h
    exact ⟨hg.inner _ hm, fun e he => ⟨hg.closed _ hm e he, hg.nonneg _ hm e he⟩⟩

theorem goodGraph_addEdge (g : Graph) (u v : String) (w : ℚ) (und : Bool)
    (hg : GoodGraph g) (hw : 0 ≤ w) : GoodGraph (addEdge g u v w und) := by
  unfold addEdge
  have hg1 : GoodGraph (ensure (ensure g u) v) :=
    goodGraph_ensure _ v (goodGraph_ensure g u hg)
  have hu1 : u ∈ (ensure (ensure g u) v).map Prod.fst :=
    keys_subset_ensure _ v (key_mem_ensure g u)
  have hv1 : v ∈ (ensure (ensure g u) v).map Prod.fst := key_mem_ensure _ v
  have hfacts1 := getAdj_facts (ensure (ensure g u) v) u hg1
  have hg2 : GoodGraph (mapSet (ensure (ensure g u) v) u
      (mapSet (getAdj (ensure (ensure g u) v) u) v w)) := by
    apply goodGraph_mapSet _ _ _ hg1
    · exact mapSet_nodup_keys _ v w hfacts1.1
    · intro e he
      rcases mem_mapSet_elim he with rfl | he'
      · exact keys_subset_mapSet _ _ _ hv1
      · exact keys_subset_mapSet _ _ _ ((hfacts1.2 e he').1)
    · intro e he
      rcases mem_mapSet_elim he with rfl | he'
      · exact hw
      · exact (hfacts1.2 e he').2
  cases und with
  | false => simpa using hg2
  | true =>
    simp only [if_true]
    have hu2 : u ∈ (mapSet (ensure (ensure g u) v) u
        (mapSet (getAdj (ensure (ensure g u) v) u) v w)).map Prod.fst :=
      keys_subset_mapSet _ _ _ hu1
    have hfacts2 := getAdj_facts _ v hg2
    apply goodGraph_mapSet _ _ _ hg2
    · exact mapSet_nodup_keys _ u w hfacts2.1
    · intro e he
      rcases mem_mapSet_elim he with rfl | he'
      · exact keys_subset_mapSet _ _ _ hu2
      · exact keys_subset_mapSet _ _ _ ((hfacts2.2 e he').1)
    · intro e he
      rcases mem_mapSet_elim he with rfl | he'
      · exact hw
      · exact (hfacts2.2 e he').2

theorem lineEdge_nonneg {raw : String} {u v : String} {w : ℚ}
    (h : lineEdge raw = some (u, v, w)) : 0 ≤ w := by
  unfold lineEdge at h
  by_cases hskip : (trimStr raw = "" || startsWithHash (trimStr raw)) = true
  · rw [if_pos hskip] at h
    exact Option.noConfusion h
  · rw [Bool.not_eq_true] at hskip
    simp only [hskip, Bool.false_eq_true, if_false] at h
    match htok : tokenize (trimStr raw) with
    | [] =>
      rw [htok] at h
      exact Option.noConfusion h
    | [a] =>
      rw [htok] at h
      exact Option.noConfusion h
    | a :: b :: rest =>
      rw [htok] at h
      dsimp only at h
      match hw : lineWeight rest with
      | none =>
        rw [hw] at h
        exact Option.noConfusion h
      | some q =>
        rw [hw] at h
        dsimp only at h
        by_cases hq : q < 0
        · rw [if_pos hq] at h
          exact Option.noConfusion h
        · rw [if_neg hq] at h
          cases h
          exact not_lt.mp hq

theorem goodGraph_foldl_addEdge (es : List (String × String × ℚ)) (und : Bool) :
    ∀ g : Graph, GoodGraph g → (∀ e ∈ es, 0 ≤ e.2.2) →
      GoodGraph (es.foldl (fun h e => addEdge h e.1 e.2.1 e.2.2 und) g) := by
  induction es with
  | nil => exact fun g hg _ => hg
  | cons e es ih =>
    intro g hg hnn
    rw [List.foldl_cons]
    exact ih _ (goodGraph_addEdge g e.1 e.2.1 e.2.2 und hg
        (hnn e (List.mem_cons_self e es)))
      (fun e' he' => hnn e' (List.mem_cons_of_mem _ he'))

/-- Every graph `parseEdges` returns is well-formed: inner keys are
distinct, both endpoints of every edge are registered as graph keys, and
all weights are non-negative. -/
theorem parseEdges_good {text : String} {und : Bool} {g : Graph}
    (h : parseEdges text und = .ok g) : GoodGraph g := by
  rw [parseEdges_eq_foldl_addEdge text und g h]
  apply goodGraph_foldl_addEdge
  · exact ⟨by simp, by simp, by simp⟩
  · intro e he
    unfold parsedEdges at he
    obtain ⟨raw, _, hraw⟩ := List.mem_filterMap.mp he
    obtain ⟨u', v', w'⟩ := e
    exact lineEdge_nonneg hraw

/-! ## Relaxation preserves the loop invariant -/

theorem mapGet_of_mem_nodup {α : Type} {m : List (String × α)} {k : String} {v : α}
    (hnd : (m.map Prod.fst).Nodup) (h : (k, v) ∈ m) : mapGet m k = some v := by
  induction m with
  | nil => simp at h
  | cons p rest ih =>
    obtain ⟨a, b⟩ := p
    rw [List.map_cons] at hnd
    have hnd' := List.nodup_cons.mp hnd
    rcases List.mem_cons.mp h with heq | hmem
    · cases heq
      simp [mapGet]
    · by_cases ha : a = k
      · subst ha
        exact absurd (List.mem_map.mpr ⟨(a, v), hmem, rfl⟩) hnd'.1
      · simp only [mapGet, if_neg ha]
        exact ih hnd'.2 hmem

theorem distOf_mapSet_self (dist : List (String × WithTop ℚ)) (v : String) (a : WithTop ℚ) :
    distOf (mapSet dist v a) v = a := by
  unfold distOf
  rw [mapGet_mapSet_self]
  rfl

theorem distOf_mapSet_ne (dist : List (String × WithTop ℚ)) (v x : String) (a : WithTop ℚ)
    (h : x ≠ v) : distOf (mapSet dist v a) x = distOf dist x := by
  unfold distOf
  rw [mapGet_mapSet_ne dist v x a h]

theorem prevStep_mapSet_self (prev : List (String × Option String)) (v : String)
    (a : Option String) : prevStep (mapSet prev v a) v = a := by
  unfold prevStep
  rw [mapGet_mapSet_self]
  rfl

theorem prevStep_mapSet_ne (prev : List (String × Option String)) (v x : String)
    (a : Option String) (h : x ≠ v) : prevStep (mapSet prev v a) x = prevStep prev x := by
  unfold prevStep
  rw [mapGet_mapSet_ne prev v x a h]

theorem relaxOne_relaxInv (g : Graph) (s : String) (dCur : ℚ) (uCur : String)
    (st : DState) (e : String × ℚ) (adj : Adjacency)
    (hg : GoodGraph g) (hadj : mapGet g uCur = some adj) (he : e ∈ adj)
    (hinv : RelaxInv g s dCur uCur st) :
    RelaxInv g s dCur uCur (relaxOne dCur uCur st e) := by
  obtain ⟨v, w⟩ := e
  have hmem : (uCur, adj) ∈ g := mapGet_mem hadj
  have hedge : edgeWeight g uCur v = some w := by
    unfold edgeWeight
    rw [hadj]
    exact mapGet_of_mem_nodup (hg.inner _ hmem) he
  have hvkey : v ∈ g.map Prod.fst := hg.closed _ hmem _ he
  have hw : 0 ≤ w := hg.nonneg _ hmem _ he
  unfold relaxOne
  by_cases hlt : ((dCur + w : ℚ) : WithTop ℚ) < distOf st.dist v
  · rw [if_pos hlt]
    have halt0 : 0 ≤ dCur + w := add_nonneg hinv.dNonneg hw
    have hdle : ((dCur : ℚ) : WithTop ℚ) ≤ ((dCur + w : ℚ) : WithTop ℚ) :=
      WithTop.coe_le_coe.mpr (le_add_of_nonneg_right hw)
    have hvnotvis : v ∉ st.visited := by
      intro hv
      exact absurd hlt (not_lt.mpr (le_trans (hinv.visLe v hv) hdle))
    have hvne_u : v ≠ uCur := fun h => hvnotvis (h ▸ hinv.uVis)
    have hvne_s : v ≠ s := by
      intro h
      subst h
      rw [hinv.srcDist] at hlt
      have := WithTop.coe_lt_coe.mp hlt
      linarith
    have hDmono : ∀ x, distOf (mapSet st.dist v ((dCur + w : ℚ) : WithTop ℚ)) x
        ≤ distOf st.dist x := by
      intro x
      by_cases hx : x = v
      · subst hx
        rw [distOf_mapSet_self]
        exact le_of_lt hlt
      · rw [distOf_mapSet_ne _ _ _ _ hx]
    have hDvisEq : ∀ x ∈ st.visited,
        distOf (mapSet st.dist v ((dCur + w : ℚ) : WithTop ℚ)) x = distOf st.dist x := by
      intro x hx
      have : x ≠ v := fun h => hvnotvis (h ▸ hx)
      rw [distOf_mapSet_ne _ _ _ _ this]
    exact {
      keysD := by
        simp only
        rw [mapSet_map_fst_of_mem st.dist v _ (by rw [hinv.keysD]; exact hvkey)]
        exact hinv.keysD
      keysP := by
        simp only
        rw [mapSet_map_fst_of_mem st.prev v _ (by rw [hinv.keysP]; exact hvkey)]
        exact hinv.keysP
      visKeys := hinv.visKeys
      visNodup := hinv.visNodup
      pqNonneg := by
        intro e' he'
        rcases List.mem_append.mp he' with h' | h'
        · exact hinv.pqNonneg e' h'
        · rw [List.mem_singleton] at h'
          subst h'
          exact halt0
      pqKeys := by
        intro e' he'
        rcases List.mem_append.mp he' with h' | h'
        · exact hinv.pqKeys e' h'
        · rw [List.mem_singleton] at h'
          subst h'
          exact hvkey
      pqGe := by
        intro e' he'
        rcases List.mem_append.mp he' with h' | h'
        · exact le_trans (hDmono e'.2) (hinv.pqGe e' h')
        · rw [List.mem_singleton] at h'
          subst h'
          rw [distOf_mapSet_self]
      unvisPq := by
        intro x hx d hd
        by_cases hxv : x = v
        · subst hxv
          rw [distOf_mapSet_self] at hd
          have : d = dCur + w := (WithTop.coe_inj.mp hd).symm
          subst this
          exact List.mem_append.mpr (Or.inr (List.mem_singleton.mpr rfl))
        · rw [distOf_mapSet_ne _ _ _ _ hxv] at hd
          exact List.mem_append.mpr (Or.inl (hinv.unvisPq x hx d hd))
      srcDist := by
        rw [distOf_mapSet_ne _ _ _ _ (fun h => hvne_s h.symm)]
        exact hinv.srcDist
      srcPrev := by
        rw [prevStep_mapSet_ne _ _ _ _ (fun h => hvne_s h.symm)]
        exact hinv.srcPrev
      sound := by
        intro x d hd
        by_cases hxv : x = v
        · subst hxv
          rw [distOf_mapSet_self] at hd
          have : d = dCur + w := (WithTop.coe_inj.mp hd).symm
          subst this
          exact Walk.snoc (hinv.sound uCur dCur hinv.uDist) hedge
        · rw [distOf_mapSet_ne _ _ _ _ hxv] at hd
          exact hinv.sound x d hd
      visMin := by
        intro x hx e' he'
        rw [hDvisEq x hx]
        rcases List.mem_append.mp he' with h' | h'
        · exact hinv.visMin x hx e' h'
        · rw [List.mem_singleton] at h'
          subst h'
          exact le_trans (hinv.visLe x hx) hdle
      triOld := by
        intro x hx hxu y w' hedge'
        rw [hDvisEq x hx]
        exact le_trans (hDmono y) (hinv.triOld x hx hxu y w' hedge')
      visFin := by
        intro x hx
        rw [hDvisEq x hx]
        exact hinv.visFin x hx
      prevWalk := by
        intro x u₀ hp
        by_cases hxv : x = v
        · subst hxv
          rw [prevStep_mapSet_self] at hp
          cases hp
          refine ⟨w, hedge, ?_, hinv.uVis⟩
          rw [distOf_mapSet_self, distOf_mapSet_ne _ _ _ _ hvne_u.symm, hinv.uDist,
            ← WithTop.coe_add]
        · rw [prevStep_mapSet_ne _ _ _ _ hxv] at hp
          obtain ⟨w₀, hedge₀, hsum, hu₀⟩ := hinv.prevWalk x u₀ hp
          have hu₀v : u₀ ≠ v := fun h => hvnotvis (h ▸ hu₀)
          refine ⟨w₀, hedge₀, ?_, hu₀⟩
          rw [distOf_mapSet_ne _ _ _ _ hxv, distOf_mapSet_ne _ _ _ _ hu₀v]
          exact hsum
      prevIdx := by
        intro x u₀ hp hx
        have hxv : x ≠ v := fun h => hvnotvis (h ▸ hx)
        rw [prevStep_mapSet_ne _ _ _ _ hxv] at hp
        exact hinv.prevIdx x u₀ hp hx
      noPrevDist := by
        intro x hxs hp
        by_cases hxv : x = v
        · subst hxv
          rw [prevStep_mapSet_self] at hp
          exact Option.noConfusion hp
        · rw [prevStep_mapSet_ne _ _ _ _ hxv] at hp
          rw [distOf_mapSet_ne _ _ _ _ hxv]
          exact hinv.noPrevDist x hxs hp
      uVis := hinv.uVis
      uDist := by
        rw [distOf_mapSet_ne _ _ _ _ hvne_u.symm]
        exact hinv.uDist
      dNonneg := hinv.dNonneg
      visLe := by
        intro x hx
        rw [hDvisEq x hx]
        exact hinv.visLe x hx }
  · rw [if_neg hlt]
    exact hinv

theorem distOf_relaxOne_le (dCur : ℚ) (u : String) (st : DState) (e : String × ℚ)
    (x : String) : distOf (relaxOne dCur u st e).dist x ≤ distOf st.dist x := by
  unfold relaxOne
  split
  · rename_i h
    by_cases hx : x = e.1
    · subst hx
      simp only
      rw [distOf_mapSet_self]
      exact le_of_lt h
    · simp only
      rw [distOf_mapSet_ne _ _ _ _ hx]
  · exact le_refl _

theorem relaxOne_post (dCur : ℚ) (u : String) (st : DState) (e : String × ℚ) :
    distOf (relaxOne dCur u st e).dist e.1 ≤ ((dCur + e.2 : ℚ) : WithTop ℚ) := by
  unfold relaxOne
  split
  · simp only
    rw [distOf_mapSet_self]
  · rename_i h
    exact not_lt.mp h

theorem foldRelax_distOf_le (dCur : ℚ) (u : String) (l : List (String × ℚ)) :
    ∀ (st : DState) (x : String),
      distOf ((l.foldl (relaxOne dCur u) st)).dist x ≤ distOf st.dist x := by
  induction l with
  | nil => exact fun st x => le_refl _
  | cons e t ih =>
    intro st x
    rw [List.foldl_cons]
    exact le_trans (ih _ x) (distOf_relaxOne_le dCur u st e x)

theorem foldRelax_relaxInv (g : Graph) (s : String) (dCur : ℚ) (uCur : String)
    (adj : Adjacency) (hg : GoodGraph g) (hadj : mapGet g uCur = some adj) :
    ∀ l : List (String × ℚ), (∀ e ∈ l, e ∈ adj) → ∀ st : DState,
      RelaxInv g s dCur uCur st →
      RelaxInv g s dCur uCur (l.foldl (relaxOne dCur uCur) st) := by
  intro l
  induction l with
  | nil => exact fun _ st h => h
  | cons e t ih =>
    intro hl st hinv
    rw [List.foldl_cons]
    exact ih (fun e' he' => hl e' (List.mem_cons_of_mem _ he')) _
      (relaxOne_relaxInv g s dCur uCur st e adj hg hadj (hl e (List.mem_cons_self e t)) hinv)

theorem foldRelax_relaxed (g : Graph) (s : String) (dCur : ℚ) (uCur : String)
    (adj : Adjacency) (hg : GoodGraph g) (hadj : mapGet g uCur = some adj) :
    ∀ l : List (String × ℚ), (∀ e ∈ l, e ∈ adj) → ∀ st : DState,
      RelaxInv g s dCur uCur st →
      ∀ e ∈ l, distOf ((l.foldl (relaxOne dCur uCur) st)).dist e.1
        ≤ ((dCur + e.2 : ℚ) : WithTop ℚ) := by
  intro l
  induction l with
  | nil =>
    intro _ st _ e he
    exact absurd he (List.not_mem_nil e)
  | cons e' t ih =>
    intro hl st hinv e he
    rw [List.foldl_cons]
    rcases List.mem_cons.mp he with rfl | he'
    · exact le_trans (foldRelax_distOf_le dCur uCur t _ e.1) (relaxOne_post dCur uCur st e)
    · exact ih (fun x hx => hl x (List.mem_cons_of_mem _ hx)) _
        (relaxOne_relaxInv g s dCur uCur st e' adj hg hadj
          (hl e' (List.mem_cons_self e' t)) hinv) e he'

/-! ## The pop and visit steps -/

theorem pop_facts (g : Graph) (s : String) (st : DState) (dCur : ℚ) (u : String)
    (rest : List (ℚ × String)) (hinv : Inv g s st)
    (hs : st.pq.insertionSort pqRel = (dCur, u) :: rest) :
    (dCur, u) ∈ st.pq ∧ (∀ e ∈ rest, e ∈ st.pq) ∧ (∀ e ∈ rest, dCur ≤ e.1) ∧
      0 ≤ dCur ∧ u ∈ g.map Prod.fst ∧
      (u ∉ st.visited → distOf st.dist u = ((dCur : ℚ) : WithTop ℚ)) := by
  have hperm := List.perm_insertionSort pqRel st.pq
  have hhead : (dCur, u) ∈ st.pq := by
    apply hperm.subset
    rw [hs]
    exact List.mem_cons_self _ _
  have hrest : ∀ e ∈ rest, e ∈ st.pq := by
    intro e he
    apply hperm.subset
    rw [hs]
    exact List.mem_cons_of_mem _ he
  haveI : IsTotal (ℚ × String) pqRel := ⟨fun a b => le_total a.1 b.1⟩
  haveI : IsTrans (ℚ × String) pqRel := ⟨fun _ _ _ hab hbc => le_trans hab hbc⟩
  have hsorted := List.sorted_insertionSort pqRel st.pq
  rw [hs] at hsorted
  have hmin : ∀ e ∈ rest, dCur ≤ e.1 := fun e he => List.rel_of_sorted_cons hsorted e he
  refine ⟨hhead, hrest, hmin, hinv.pqNonneg _ hhead, hinv.pqKeys _ hhead, ?_⟩
  intro hu
  have hle : distOf st.dist u ≤ ((dCur : ℚ) : WithTop ℚ) := hinv.pqGe _ hhead
  have hne : distOf st.dist u ≠ ⊤ := ne_top_of_le_ne_top WithTop.coe_ne_top hle
  obtain ⟨d₀, hd₀⟩ := WithTop.ne_top_iff_exists.mp hne
  have hd₀le : d₀ ≤ dCur := WithTop.coe_le_coe.mp (hd₀ ▸ hle)
  have hmem := hinv.unvisPq u hu d₀ hd₀.symm
  have : (d₀, u) ∈ (dCur, u) :: rest := by
    rw [← hs]
    exact hperm.mem_iff.mpr hmem
  rcases List.mem_cons.mp this with heq | hmem'
  · rw [← hd₀, (Prod.mk.injEq _ _ _ _).mp heq |>.1]
  · have := hmin _ hmem'
    have : d₀ = dCur := le_antisymm hd₀le this
    rw [← hd₀, this]

theorem step_visit (g : Graph) (s : String) (st : DState) (dCur : ℚ) (u : String)
    (rest : List (ℚ × String)) (hg : GoodGraph g) (hinv : Inv g s st)
    (hs : st.pq.insertionSort pqRel = (dCur, u) :: rest) (hu : u ∉ st.visited) :
    Inv g s ((getAdj g u).foldl (relaxOne dCur u)
      { st with visited := st.visited ++ [u], pq := rest }) := by
  obtain ⟨hhead, hrest, hmin, hd0, hukey, hDu'⟩ := pop_facts g s st dCur u rest hinv hs
  have hDu := hDu' hu
  have hinv1 : RelaxInv g s dCur u { st with visited := st.visited ++ [u], pq := rest } := by
    refine {
      keysD := hinv.keysD
      keysP := hinv.keysP
      visKeys := ?_
      visNodup := ?_
      pqNonneg := fun e he => hinv.pqNonneg e (hrest e he)
      pqKeys := fun e he => hinv.pqKeys e (hrest e he)
      pqGe := fun e he => hinv.pqGe e (hrest e he)
      unvisPq := ?_
      srcDist := hinv.srcDist
      srcPrev := hinv.srcPrev
      sound := hinv.sound
      visMin := ?_
      triOld := ?_
      visFin := ?_
      prevWalk := ?_
      prevIdx := ?_
      noPrevDist := hinv.noPrevDist
      uVis := List.mem_append_right _ (List.mem_singleton.mpr rfl)
      uDist := hDu
      dNonneg := hd0
      visLe := ?_ }
    · intro x hx
      rcases List.mem_append.mp hx with hx' | hx'
      · exact hinv.visKeys x hx'
      · rw [List.mem_singleton] at hx'
        subst hx'
        exact hukey
    · rw [List.nodup_append]
      refine ⟨hinv.visNodup, List.nodup_singleton u, ?_⟩
      intro a ha hb
      rw [List.mem_singleton] at hb
      exact hu (hb ▸ ha)
    · intro x hx d hd
      have hx' : x ∉ st.visited := fun h => hx (List.mem_append_left _ h)
      have hxu : x ≠ u := fun h => hx (List.mem_append_right _ (by simp [h]))
      have hmem := hinv.unvisPq x hx' d hd
      have : (d, x) ∈ (dCur, u) :: rest := by
        rw [← hs]
        exact (List.perm_insertionSort pqRel st.pq).mem_iff.mpr hmem
      rcases List.mem_cons.mp this with heq | hmem'
      · exact absurd ((Prod.mk.injEq _ _ _ _).mp heq).2 hxu
      · exact hmem'
    · intro x hx e he
      rcases List.mem_append.mp hx with hx' | hx'
      · exact hinv.visMin x hx' e (hrest e he)
      · rw [List.mem_singleton] at hx'
        subst hx'
        rw [hDu]
        exact WithTop.coe_le_coe.mpr (hmin e he)
    · intro x hx hxu y w hedge
      rcases List.mem_append.mp hx with hx' | hx'
      · exact hinv.visTri x hx' y w hedge
      · rw [List.mem_singleton] at hx'
        exact absurd hx' hxu
    · intro x hx
      rcases List.mem_append.mp hx with hx' | hx'
      · exact hinv.visFin x hx'
      · rw [List.mem_singleton] at hx'
        subst hx'
        rw [hDu]
        exact WithTop.coe_ne_top
    · intro x u₀ hp
      obtain ⟨w, hedge, hsum, hu₀⟩ := hinv.prevWalk x u₀ hp
      exact ⟨w, hedge, hsum, List.mem_append_left _ hu₀⟩
    · intro x u₀ hp hx
      obtain ⟨w, hedge, hsum, hu₀⟩ := hinv.prevWalk x u₀ hp
      rcases List.mem_append.mp hx with hx' | hx'
      · rw [List.indexOf_append_of_mem hu₀, List.indexOf_append_of_mem hx']
        exact hinv.prevIdx x u₀ hp hx'
      · rw [List.mem_singleton] at hx'
        subst hx'
        rw [List.indexOf_append_of_mem hu₀, List.indexOf_append_of_not_mem hu]
        simp only [List.indexOf_cons_self, Nat.add_zero]
        exact List.indexOf_lt_length.mpr hu₀
    · intro x hx
      rcases List.mem_append.mp hx with hx' | hx'
      · exact hinv.visMin x hx' (dCur, u) hhead
      · rw [List.mem_singleton] at hx'
        subst hx'
        rw [hDu]
  cases hadj : mapGet g u with
  | none =>
    have hempty : getAdj g u = [] := by
      unfold getAdj
      rw [hadj]
      rfl
    rw [hempty]
    simp only [List.foldl_nil]
    refine {
      keysD := hinv1.keysD, keysP := hinv1.keysP, visKeys := hinv1.visKeys
      visNodup := hinv1.visNodup, pqNonneg := hinv1.pqNonneg, pqKeys := hinv1.pqKeys
      pqGe := hinv1.pqGe, unvisPq := hinv1.unvisPq, srcDist := hinv1.srcDist
      srcPrev := hinv1.srcPrev, sound := hinv1.sound, visMin := hinv1.visMin
      visTri := ?_, visFin := hinv1.visFin, prevWalk := hinv1.prevWalk
      prevIdx := hinv1.prevIdx, noPrevDist := hinv1.noPrevDist }
    intro x hx y w hedge
    by_cases hxu : x = u
    · subst hxu
      unfold edgeWeight at hedge
      rw [hadj] at hedge
      exact Option.noConfusion hedge
    · exact hinv1.triOld x hx hxu y w hedge
  | some adj =>
    have hgadj : getAdj g u = adj := by
      unfold getAdj
      rw [hadj]
      rfl
    have hfin := foldRelax_relaxInv g s dCur u adj hg hadj (getAdj g u)
      (by rw [hgadj]; exact fun e he => he) _ hinv1
    have hrelaxed := foldRelax_relaxed g s dCur u adj hg hadj (getAdj g u)
      (by rw [hgadj]; exact fun e he => he) _ hinv1
    refine {
      keysD := hfin.keysD, keysP := hfin.keysP, visKeys := hfin.visKeys
      visNodup := hfin.visNodup, pqNonneg := hfin.pqNonneg, pqKeys := hfin.pqKeys
      pqGe := hfin.pqGe, unvisPq := hfin.unvisPq, srcDist := hfin.srcDist
      srcPrev := hfin.srcPrev, sound := hfin.sound, visMin := hfin.visMin
      visTri := ?_, visFin := hfin.visFin, prevWalk := hfin.prevWalk
      prevIdx := hfin.prevIdx, noPrevDist := hfin.noPrevDist }
    intro x hx y w hedge
    by_cases hxu : x = u
    · subst hxu
      have hyw : (y, w) ∈ getAdj g x := by
        rw [hgadj]
        unfold edgeWeight at hedge
        rw [hadj] at hedge
        exact mapGet_mem hedge
      have h1 := hrelaxed (y, w) hyw
      rw [hfin.uDist, ← WithTop.coe_add]
      exact h1
    · exact hfin.triOld x hx hxu y w hedge

theorem step_skip (g : Graph) (s : String) (st : DState) (dCur : ℚ) (u : String)
    (rest : List (ℚ × String)) (hinv : Inv g s st)
    (hs : st.pq.insertionSort pqRel = (dCur, u) :: rest) (hu : u ∈ st.visited) :
    Inv g s { st with pq := rest } := by
  obtain ⟨hhead, hrest, hmin, hd0, hukey, _⟩ := pop_facts g s st dCur u rest hinv hs
  refine {
    keysD := hinv.keysD, keysP := hinv.keysP, visKeys := hinv.visKeys
    visNodup := hinv.visNodup
    pqNonneg := fun e he => hinv.pqNonneg e (hrest e he)
    pqKeys := fun e he => hinv.pqKeys e (hrest e he)
    pqGe := fun e he => hinv.pqGe e (hrest e he)
    unvisPq := ?_
    srcDist := hinv.srcDist, srcPrev := hinv.srcPrev, sound := hinv.sound
    visMin := fun x hx e he => hinv.visMin x hx e (hrest e he)
    visTri := hinv.visTri, visFin := hinv.visFin, prevWalk := hinv.prevWalk
    prevIdx := hinv.prevIdx, noPrevDist := hinv.noPrevDist }
  intro x hx d hd
  have hxu : x ≠ u := fun h => hx (h ▸ hu)
  have hmem := hinv.unvisPq x hx d hd
  have : (d, x) ∈ (dCur, u) :: rest := by
    rw [← hs]
    exact (List.perm_insertionSort pqRel st.pq).mem_iff.mpr hmem
  rcases List.mem_cons.mp this with heq | hmem'
  · exact absurd ((Prod.mk.injEq _ _ _ _).mp heq).2 hxu
  · exact hmem'

/-! ## The loop drains the queue and preserves the invariant -/

theorem insertionSort_pq_length (st : DState) :
    (st.pq.insertionSort pqRel).length = st.pq.length :=
  (List.perm_insertionSort pqRel st.pq).length_eq

theorem dMeasure_skip (g : Graph) (st : DState) (dCur : ℚ) (u : String)
    (rest : List (ℚ × String)) (hs : st.pq.insertionSort pqRel = (dCur, u) :: rest) :
    dMeasure g { st with pq := rest } < dMeasure g st := by
  have hlen : st.pq.length = rest.length + 1 := by
    have h := insertionSort_pq_length st
    rw [hs, List.length_cons] at h
    omega
  simp only [dMeasure]
  omega

theorem dMeasure_visit (g : Graph) (st : DState) (dCur : ℚ) (u : String)
    (rest : List (ℚ × String)) (hs : st.pq.insertionSort pqRel = (dCur, u) :: rest)
    (hu : u ∉ st.visited) :
    dMeasure g ((getAdj g u).foldl (relaxOne dCur u)
      { st with visited := st.visited ++ [u], pq := rest }) < dMeasure g st := by
  have hlen : st.pq.length = rest.length + 1 := by
    have h := insertionSort_pq_length st
    rw [hs, List.length_cons] at h
    omega
  simp only [dMeasure]
  have hpq := foldRelax_pq_length dCur u (getAdj g u)
    { st with visited := st.visited ++ [u], pq := rest }
  have hvis := foldRelax_visited dCur u (getAdj g u)
    { st with visited := st.visited ++ [u], pq := rest }
  rw [hvis]
  simp only at hpq
  by_cases hk : u ∈ keysOf g
  · have hcnt := unvisitedCount_append_lt g st.visited u hk hu
    have hadj := getAdj_length_le_totalAdj g u
    set K := 1 + totalAdj g with hK
    have h2 : unvisitedCount g (st.visited ++ [u]) + 1 ≤ unvisitedCount g st.visited := hcnt
    calc (((getAdj g u).foldl (relaxOne dCur u)
            { st with visited := st.visited ++ [u], pq := rest }).pq.length
          + unvisitedCount g (st.visited ++ [u]) * K)
        ≤ (rest.length + (getAdj g u).length) + unvisitedCount g (st.visited ++ [u]) * K := by
          exact Nat.add_le_add_right hpq _
      _ < rest.length + K + unvisitedCount g (st.visited ++ [u]) * K := by omega
      _ = rest.length + (unvisitedCount g (st.visited ++ [u]) + 1) * K := by ring
      _ ≤ rest.length + unvisitedCount g st.visited * K :=
          Nat.add_le_add_left (Nat.mul_le_mul_right _ h2) _
      _ < st.pq.length + unvisitedCount g st.visited * K := by omega
  · have hadj : getAdj g u = [] := by
      unfold getAdj
      rw [(mapGet_eq_none_iff g u).mpr hk]
      rfl
    rw [hadj]
    simp only [List.foldl_nil]
    have hcnt := unvisitedCount_append_le g st.visited u
    have : rest.length < st.pq.length := by omega
    exact Nat.add_lt_add_of_lt_of_le this (Nat.mul_le_mul_right _ hcnt)

theorem loopF_inv (g : Graph) (s : String) (hg : GoodGraph g) :
    ∀ (n : ℕ) (st : DState), dMeasure g st ≤ n → Inv g s st →
      Inv g s (dijkstraLoopF g n st) ∧ (dijkstraLoopF g n st).pq = [] := by
  intro n
  induction n with
  | zero =>
    intro st hm hinv
    have hpq : st.pq = [] := by
      have : st.pq.length = 0 := by
        unfold dMeasure at hm
        omega
      exact List.length_eq_zero.mp this
    exact ⟨hinv, hpq⟩
  | succ n ih =>
    intro st hm hinv
    unfold dijkstraLoopF
    match hs : st.pq.insertionSort pqRel with
    | [] =>
      have hpq : st.pq = [] := by
        have h := insertionSort_pq_length st
        rw [hs] at h
        exact List.length_eq_zero.mp h.symm
      exact ⟨hinv, hpq⟩
    | (dCur, u) :: rest =>
      dsimp only
      by_cases hu : u ∈ st.visited
      · rw [if_pos hu]
        have hlt := dMeasure_skip g st dCur u rest hs
        exact ih { st with pq := rest } (by omega) (step_skip g s st dCur u rest hinv hs hu)
      · rw [if_neg hu]
        have hlt := dMeasure_visit g st dCur u rest hs hu
        exact ih _ (by omega) (step_visit g s st dCur u rest hg hinv hs hu)

/-- Any step count of at least `dMeasure g st` gives the same result:
the explicit cut-off in `dijkstraLoop` is immaterial, so `dijkstraLoop`
is exactly the `while (pq.length)` loop run to completion. -/
theorem dijkstraLoopF_stable (g : Graph) :
    ∀ (n : ℕ) (st : DState), dMeasure g st ≤ n →
      ∀ m, n ≤ m → dijkstraLoopF g m st = dijkstraLoopF g n st := by
  intro n
  induction n with
  | zero =>
    intro st hm m _
    have hpq : st.pq = [] := by
      have : st.pq.length = 0 := by
        unfold dMeasure at hm
        omega
      exact List.length_eq_zero.mp this
    have hsort : st.pq.insertionSort pqRel = [] := by
      rw [hpq]
      rfl
    cases m with
    | zero => rfl
    | succ m =>
      unfold dijkstraLoopF
      rw [hsort]
  | succ n ih =>
    intro st hm m hnm
    cases m with
    | zero => omega
    | succ m =>
      unfold dijkstraLoopF
      match hs : st.pq.insertionSort pqRel with
      | [] => rfl
      | (dCur, u) :: rest =>
        dsimp only
        by_cases hu : u ∈ st.visited
        · rw [if_pos hu, if_pos hu]
          have hlt := dMeasure_skip g st dCur u rest hs
          have h1 := ih { st with pq := rest } (by omega) m (by omega)
          have h2 := ih { st with pq := rest } (by omega) n (le_refl n)
          rw [h1, h2]
        · rw [if_neg hu, if_neg hu]
          have hlt := dMeasure_visit g st dCur u rest hs hu
          have h1 := ih ((getAdj g u).foldl (relaxOne dCur u)
            { st with visited := st.visited ++ [u], pq := rest }) (by omega) m (by omega)
          have h2 := ih ((getAdj g u).foldl (relaxOne dCur u)
            { st with visited := st.visited ++ [u], pq := rest }) (by omega) n (le_refl n)
          rw [h1, h2]

theorem dijkstraLoop_inv (g : Graph) (s : String) (st : DState)
    (hg : GoodGraph g) (hinv : Inv g s st) :
    Inv g s (dijkstraLoop g st) ∧ (dijkstraLoop g st).pq = [] :=
  loopF_inv g s hg (dMeasure g st) st (le_refl _) hinv

/-! ## The initial state satisfies the invariant -/

theorem distOf_initDist (g : Graph) (x : String) : distOf (initDist g) x = ⊤ := by
  unfold distOf initDist
  induction g with
  | nil => rfl
  | cons p rest ih =>
    by_cases h : p.1 = x
    · simp [mapGet, h]
    · simpa [mapGet, h] using ih

theorem prevStep_initPrev (g : Graph) (x : String) : prevStep (initPrev g) x = none := by
  unfold prevStep initPrev
  induction g with
  | nil => rfl
  | cons p rest ih =>
    by_cases h : p.1 = x
    · simp [mapGet, h]
    · simpa [mapGet, h] using ih

theorem inv_init (g : Graph) (s : String) (hs : s ∈ g.map Prod.fst) :
    Inv g s
      { dist := mapSet (initDist g) s ((0 : ℚ) : WithTop ℚ), prev := initPrev g,
        visited := [], pq := [((0 : ℚ), s)] } := by
  have hsd : s ∈ (initDist g).map Prod.fst := by
    unfold initDist
    rw [List.map_map]
    exact hs
  have hD : ∀ x, x ≠ s →
      distOf (mapSet (initDist g) s ((0 : ℚ) : WithTop ℚ)) x = ⊤ := by
    intro x hx
    rw [distOf_mapSet_ne _ _ _ _ hx]
    exact distOf_initDist g x
  have hDs : distOf (mapSet (initDist g) s ((0 : ℚ) : WithTop ℚ)) s
      = ((0 : ℚ) : WithTop ℚ) := distOf_mapSet_self _ _ _
  refine {
    keysD := ?_
    keysP := ?_
    visKeys := fun x hx => absurd hx (List.not_mem_nil x)
    visNodup := List.nodup_nil
    pqNonneg := ?_
    pqKeys := ?_
    pqGe := ?_
    unvisPq := ?_
    srcDist := hDs
    srcPrev := prevStep_initPrev g s
    sound := ?_
    visMin := fun x hx => absurd hx (List.not_mem_nil x)
    visTri := fun x hx => absurd hx (List.not_mem_nil x)
    visFin := fun x hx => absurd hx (List.not_mem_nil x)
    prevWalk := ?_
    prevIdx := ?_
    noPrevDist := ?_ }
  · rw [mapSet_map_fst_of_mem _ _ _ hsd]
    unfold initDist
    rw [List.map_map]
    rfl
  · unfold initPrev
    rw [List.map_map]
    rfl
  · intro e he
    rw [List.mem_singleton] at he
    subst he
    exact le_refl _
  · intro e he
    rw [List.mem_singleton] at he
    subst he
    exact hs
  · intro e he
    rw [List.mem_singleton] at he
    subst he
    rw [hDs]
  · intro x _ d hd
    by_cases hx : x = s
    · subst hx
      rw [hDs] at hd
      have : (0 : ℚ) = d := WithTop.coe_inj.mp hd
      rw [List.mem_singleton, ← this]
    · rw [hD x hx] at hd
      exact absurd hd.symm WithTop.coe_ne_top
  · intro x d hd
    by_cases hx : x = s
    · subst hx
      rw [hDs] at hd
      have : (0 : ℚ) = d := WithTop.coe_inj.mp hd
      rw [← this]
      exact Walk.nil
    · rw [hD x hx] at hd
      exact absurd hd.symm WithTop.coe_ne_top
  · intro x u hp
    rw [prevStep_initPrev g x] at hp
    exact Option.noConfusion hp
  · intro x u hp
    rw [prevStep_initPrev g x] at hp
    exact Option.noConfusion hp
  · intro x hx _
    exact hD x hx

/-! ## Facts about the final state -/

theorem final_unvisited_top (g : Graph) (s : String) (st : DState)
    (hinv : Inv g s st) (hpq : st.pq = []) :
    ∀ x, x ∉ st.visited → distOf st.dist x = ⊤ := by
  intro x hx
  by_contra h
  obtain ⟨d, hd⟩ := WithTop.ne_top_iff_exists.mp h
  have := hinv.unvisPq x hx d hd.symm
  rw [hpq] at this
  exact absurd this (List.not_mem_nil _)

theorem final_opt (g : Graph) (s : String) (st : DState)
    (hinv : Inv g s st) (hpq : st.pq = []) :
    ∀ x (w : ℚ), Walk g s x w → distOf st.dist x ≤ ((w : ℚ) : WithTop ℚ) := by
  intro x w hw
  induction hw with
  | nil =>
    rw [hinv.srcDist]
  | snoc hwalk hedge ih =>
    rename_i y t wyt d
    have hyfin : distOf st.dist y ≠ ⊤ := ne_top_of_le_ne_top WithTop.coe_ne_top ih
    have hyvis : y ∈ st.visited := by
      by_contra h
      exact hyfin (final_unvisited_top g s st hinv hpq y h)
    calc distOf st.dist t ≤ distOf st.dist y + ((wyt : ℚ) : WithTop ℚ) :=
        hinv.visTri y hyvis t wyt hedge
      _ ≤ ((d : ℚ) : WithTop ℚ) + ((wyt : ℚ) : WithTop ℚ) := add_le_add_right ih _
      _ = (((d + wyt : ℚ)) : WithTop ℚ) := (WithTop.coe_add d wyt).symm

theorem final_prev_reachable (g : Graph) (s : String) (st : DState)
    (hinv : Inv g s st) :
    ∀ x u, prevStep st.prev x = some u → Reachable g s x := by
  intro x u hp
  obtain ⟨w, hedge, _, hu⟩ := hinv.prevWalk x u hp
  have hufin := hinv.visFin u hu
  obtain ⟨du, hdu⟩ := WithTop.ne_top_iff_exists.mp hufin
  exact ⟨du + w, Walk.snoc (hinv.sound u du hdu.symm) hedge⟩

theorem final_unreachable (g : Graph) (s : String) (st : DState)
    (hinv : Inv g s st) (hpq : st.pq = []) (x : String) (hx : ¬ Reachable g s x) :
    distOf st.dist x = ⊤ ∧ prevStep st.prev x = none := by
  constructor
  · by_contra h
    obtain ⟨d, hd⟩ := WithTop.ne_top_iff_exists.mp h
    exact hx ⟨d, hinv.sound x d hd.symm⟩
  · cases hp : prevStep st.prev x with
    | none => rfl
    | some u => exact absurd (final_prev_reachable g s st hinv x u hp) hx

/-! ## Termination and telescoping of the backward walk -/

theorem backWalk_mono (prev : List (String × Option String)) :
    ∀ (n : ℕ) (cur : String) (l : List String), backWalk prev n cur = some l →
      ∀ m, n ≤ m → backWalk prev m cur = some l := by
  intro n
  induction n with
  | zero =>
    intro cur l h
    exact Option.noConfusion h
  | succ n ih =>
    intro cur l h m hm
    cases m with
    | zero => omega
    | succ m =>
      unfold backWalk at h ⊢
      cases hp : prevStep prev cur with
      | none =>
        rw [hp] at h
        exact h
      | some u =>
        rw [hp] at h
        have h2 : Option.map (fun t => cur :: t) (backWalk prev n u) = some l := h
        obtain ⟨l', hl', rfl⟩ := Option.map_eq_some'.mp h2
        show Option.map (fun t => cur :: t) (backWalk prev m u) = some (cur :: l')
        rw [ih u l' hl' m (by omega)]
        rfl

theorem backWalk_exists (g : Graph) (s : String) (st : DState) (hinv : Inv g s st) :
    ∀ (n : ℕ) (x : String), x ∈ st.visited → st.visited.indexOf x < n →
      ∃ l, backWalk st.prev n x = some l := by
  intro n
  induction n with
  | zero =>
    intro x _ hidx
    omega
  | succ n ih =>
    intro x hx hidx
    cases hp : prevStep st.prev x with
    | none =>
      refine ⟨[x], ?_⟩
      unfold backWalk
      rw [hp]
    | some u =>
      obtain ⟨w, hedge, hsum, hu⟩ := hinv.prevWalk x u hp
      have hlt := hinv.prevIdx x u hp hx
      obtain ⟨l, hl⟩ := ih u hu (by omega)
      refine ⟨x :: l, ?_⟩
      unfold backWalk
      rw [hp]
      show Option.map (fun t => x :: t) (backWalk st.prev n u) = some (x :: l)
      rw [hl]
      rfl

theorem backWalk_total (g : Graph) (s : String) (st : DState) (hinv : Inv g s st) :
    ∀ target, ∃ l, backWalk st.prev (g.length + 1) target = some l := by
  intro target
  cases hp : prevStep st.prev target with
  | none =>
    refine ⟨[target], ?_⟩
    unfold backWalk
    rw [hp]
  | some u =>
    obtain ⟨w, hedge, hsum, hu⟩ := hinv.prevWalk target u hp
    have hvlen : st.visited.length ≤ g.length := by
      have h1 := (List.subperm_of_subset hinv.visNodup hinv.visKeys).length_le
      rw [List.length_map] at h1
      exact h1
    have hidx : st.visited.indexOf u < g.length :=
      lt_of_lt_of_le (List.indexOf_lt_length.mpr hu) hvlen
    obtain ⟨l, hl⟩ := backWalk_exists g s st hinv g.length u hu hidx
    refine ⟨target :: l, ?_⟩
    unfold backWalk
    rw [hp]
    show Option.map (fun t => target :: t) (backWalk st.prev g.length u) = some (target :: l)
    rw [hl]
    rfl

theorem pathWeight_append_single (g : Graph) :
    ∀ (xs : List String) (y z : String) (r w : ℚ), pathWeight g xs = some r →
      xs.getLast? = some z → edgeWeight g z y = some w →
      pathWeight g (xs ++ [y]) = some (r + w) := by
  intro xs
  induction xs with
  | nil =>
    intro y z r w _ hlast _
    exact Option.noConfusion hlast
  | cons a t ih =>
    intro y z r w hpw hlast hedge
    cases t with
    | nil =>
      have hr : r = 0 := by
        unfold pathWeight at hpw
        cases hpw
        rfl
      have hz : z = a := by
        simp only [List.getLast?_singleton, Option.some.injEq] at hlast
        exact hlast.symm
      subst hz hr
      show pathWeight g [z, y] = some (0 + w)
      unfold pathWeight
      rw [hedge]
      show (pathWeight g [y]).map (fun r => w + r) = some (0 + w)
      unfold pathWeight
      simp [add_comm]
    | cons b t' =>
      unfold pathWeight at hpw
      obtain ⟨w1, hw1, hrest⟩ := Option.bind_eq_some.mp hpw
      obtain ⟨r1, hr1, hsum⟩ := Option.map_eq_some'.mp hrest
      have hlast' : (b :: t').getLast? = some z := by
        rw [← hlast]
        exact List.getLast?_cons_cons.symm
      have hrec := ih y z r1 w hr1 hlast' hedge
      rw [List.cons_append] at hrec
      show pathWeight g (a :: b :: (t' ++ [y])) = some (r + w)
      unfold pathWeight
      rw [hw1, hrec]
      show some (w1 + (r1 + w)) = some (r + w)
      rw [← hsum]
      exact congrArg some (by ring)

theorem pathWeight_chain (g : Graph) :
    ∀ (p : List String) (d : ℚ), pathWeight g p = some d →
      p.Chain' (fun a b => (edgeWeight g a b).isSome = true) := by
  intro p
  induction p with
  | nil => exact fun d _ => List.chain'_nil
  | cons a t ih =>
    intro d hd
    cases t with
    | nil => exact List.chain'_singleton a
    | cons b t' =>
      unfold pathWeight at hd
      obtain ⟨w1, hw1, hrest⟩ := Option.bind_eq_some.mp hd
      obtain ⟨r1, hr1, _⟩ := Option.map_eq_some'.mp hrest
      rw [List.chain'_cons]
      exact ⟨by rw [hw1]; rfl, ih r1 hr1⟩

theorem backWalk_sum (g : Graph) (s : String) (st : DState)
    (hinv : Inv g s st) :
    ∀ (n : ℕ) (x : String) (l : List String) (d : ℚ),
      backWalk st.prev n x = some l → distOf st.dist x = ((d : ℚ) : WithTop ℚ) →
      pathWeight g l.reverse = some d ∧ l.reverse.head? = some s ∧ l.head? = some x := by
  intro n
  induction n with
  | zero =>
    intro x l d h
    exact Option.noConfusion h
  | succ n ih =>
    intro x l d h hd
    unfold backWalk at h
    cases hp : prevStep st.prev x with
    | none =>
      rw [hp] at h
      have h2 : some [x] = some l := h
      cases h2
      have hxs : x = s := by
        by_contra hxs
        rw [hinv.noPrevDist x hxs hp] at hd
        exact absurd hd.symm WithTop.coe_ne_top
      subst hxs
      have hd0 : d = 0 := by
        rw [hinv.srcDist] at hd
        exact (WithTop.coe_inj.mp hd).symm
      subst hd0
      refine ⟨rfl, rfl, rfl⟩
    | some u =>
      rw [hp] at h
      have h2 : Option.map (fun t => x :: t) (backWalk st.prev n u) = some l := h
      obtain ⟨l', hl', rfl⟩ := Option.map_eq_some'.mp h2
      obtain ⟨w, hedge, hsum, hu⟩ := hinv.prevWalk x u hp
      rw [hd] at hsum
      have hufin : distOf st.dist u ≠ ⊤ := by
        intro htop
        rw [htop, WithTop.top_add] at hsum
        exact WithTop.coe_ne_top hsum
      obtain ⟨du, hdu⟩ := WithTop.ne_top_iff_exists.mp hufin
      have hdsum : d = du + w := by
        rw [← hdu, ← WithTop.coe_add] at hsum
        exact WithTop.coe_inj.mp hsum
      obtain ⟨hpw, hhead, hcur⟩ := ih u l' du hl' hdu.symm
      have hlast : l'.reverse.getLast? = some u := by
        rw [List.getLast?_reverse]
        exact hcur
      have hne : l'.reverse ≠ [] := by
        intro hnil
        rw [hnil] at hhead
        exact Option.noConfusion hhead
      refine ⟨?_, ?_, rfl⟩
      · rw [List.reverse_cons]
        rw [hdsum]
        exact pathWeight_append_single g l'.reverse x u du w hpw hlast hedge
      · rw [List.reverse_cons, List.head?_append, hhead]
        rfl

/-! ## Packaging: the state `dijkstra` returns satisfies the invariant -/

theorem edgeWeight_target_mem (g : Graph) (hg : GoodGraph g) (u v : String) (w : ℚ)
    (h : edgeWeight g u v = some w) : v ∈ g.map Prod.fst := by
  unfold edgeWeight at h
  obtain ⟨adj, hadj, hv⟩ := Option.bind_eq_some.mp h
  exact hg.closed (u, adj) (mapGet_mem hadj) (v, w) (mapGet_mem hv)

theorem dijkstra_final (g : Graph) (s : String) (hg : GoodGraph g)
    (dist : List (String × WithTop ℚ)) (prev : List (String × Option String))
    (h : dijkstra g s = .ok (dist, prev)) :
    s ∈ g.map Prod.fst ∧
      ∃ st : DState, Inv g s st ∧ st.pq = [] ∧ st.dist = dist ∧ st.prev = prev := by
  by_cases hs : mapHas g s = false
  · simp [dijkstra, hs] at h
  · simp only [dijkstra] at h
    rw [if_neg hs] at h
    have hmem : s ∈ g.map Prod.fst := by
      rw [← mapHas_iff_mem]
      cases hmh : mapHas g s with
      | false => exact absurd hmh hs
      | true => rfl
    have hinv0 := inv_init g s hmem
    obtain ⟨hinv, hpq⟩ := dijkstraLoop_inv g s _ hg hinv0
    rw [Except.ok.injEq, Prod.mk.injEq] at h
    exact ⟨hmem, _, hinv, hpq, h.1, h.2⟩

/-! ## The five claims about `dijkstra` and `reconstructPath` -/

/-- C1: on a `parseEdges`-built graph, for every node `n` whose final
distance entry is the finite value `d`, there is an edge sequence from
the source to `n` of total weight exactly `d`, and no edge sequence from
the source to `n` has a strictly smaller total weight. -/
theorem dijkstra_shortest_paths (text : String) (und : Bool) (g : Graph) (s : String)
    (dist : List (String × WithTop ℚ)) (prev : List (String × Option String))
    (hparse : parseEdges text und = .ok g)
    (hrun : dijkstra g s = .ok (dist, prev))
    (n : String) (d : ℚ) (hd : distOf dist n = ((d : ℚ) : WithTop ℚ)) :
    Walk g s n d ∧ ∀ w : ℚ, Walk g s n w → d ≤ w := by
  have hg := parseEdges_good hparse
  obtain ⟨-, st, hinv, hpq, hdist, hprev⟩ := dijkstra_final g s hg dist prev hrun
  subst hdist
  refine ⟨hinv.sound n d hd, ?_⟩
  intro w hw
  have hle := final_opt g s st hinv hpq n w hw
  rw [hd] at hle
  exact WithTop.coe_le_coe.mp hle

theorem dijkstra_shortest_paths_witness :
    parseEdges "A B 5\nB C 3" true = .ok gEx ∧
      dijkstra gEx "A" = .ok (distEx, prevEx) ∧
      distOf distEx "C" = ((8 : ℚ) : WithTop ℚ) ∧ Walk gEx "A" "C" 8 :=
  ⟨by with_unfolding_all rfl, by with_unfolding_all rfl, by with_unfolding_all rfl,
    (dijkstra_shortest_paths "A B 5\nB C 3" true gEx "A" distEx prevEx
      (by with_unfolding_all rfl) (by with_unfolding_all rfl) "C" 8
      (by with_unfolding_all rfl)).1⟩

/-- C2: for a target whose recorded distance is the finite value `d`,
`reconstructPath` (any fuel of at least `|graph| + 1` loop iterations
gives the same answer) returns a node sequence from the source to the
target in which every consecutive pair is an edge of the graph, and the
consecutive edge weights sum to exactly `d`. -/
theorem reconstructPath_sums_to_distance (text : String) (und : Bool) (g : Graph)
    (s : String) (dist : List (String × WithTop ℚ)) (prev : List (String × Option String))
    (hparse : parseEdges text und = .ok g)
    (hrun : dijkstra g s = .ok (dist, prev))
    (target : String) (d : ℚ) (hd : distOf dist target = ((d : ℚ) : WithTop ℚ)) :
    ∃ p : List String,
      (∀ fuel, g.length + 1 ≤ fuel → reconstructPath prev target fuel = some p) ∧
      p.head? = some s ∧ p.getLast? = some target ∧
      p.Chain' (fun a b => (edgeWeight g a b).isSome = true) ∧
      pathWeight g p = some d := by
  have hg := parseEdges_good hparse
  obtain ⟨-, st, hinv, hpq, hdist, hprev⟩ := dijkstra_final g s hg dist prev hrun
  subst hdist
  subst hprev
  obtain ⟨l, hl⟩ := backWalk_total g s st hinv target
  obtain ⟨hpw, hhead, hcur⟩ := backWalk_sum g s st hinv (g.length + 1) target l d hl hd
  refine ⟨l.reverse, ?_, hhead, ?_, pathWeight_chain g l.reverse d hpw, hpw⟩
  · intro fuel hfuel
    unfold reconstructPath
    rw [backWalk_mono st.prev (g.length + 1) target l hl fuel hfuel]
    rfl
  · rw [List.getLast?_reverse]
    exact hcur

theorem reconstructPath_sums_to_distance_witness :
    reconstructPath prevEx "C" (gEx.length + 1) = some ["A", "B", "C"] ∧
      pathWeight gEx ["A", "B", "C"] = some 8 := by
  obtain ⟨p, hp, hh, hlast, hc, hw⟩ :=
    reconstructPath_sums_to_distance "A B 5\nB C 3" true gEx "A" distEx prevEx
      (by with_unfolding_all rfl) (by with_unfolding_all rfl) "C" 8
      (by with_unfolding_all rfl)
  have h4 := hp (gEx.length + 1) (le_refl _)
  have hcalc : reconstructPath prevEx "C" (gEx.length + 1) = some ["A", "B", "C"] := by
    with_unfolding_all rfl
  rw [h4] at hcalc
  injection hcalc with hpeq
  subst hpeq
  exact ⟨h4, hw⟩

/-- C8: a target that is unreachable from the source, in particular any
identifier that is not a graph key, ends with distance `+∞` and no
predecessor entry, and `reconstructPath` returns the one-element
sequence `[target]` for every positive fuel. -/
theorem dijkstra_unreachable (text : String) (und : Bool) (g : Graph) (s : String)
    (dist : List (String × WithTop ℚ)) (prev : List (String × Option String))
    (hparse : parseEdges text und = .ok g)
    (hrun : dijkstra g s = .ok (dist, prev))
    (target : String)
    (htgt : ¬ Reachable g s target ∨ target ∉ g.map Prod.fst) :
    distOf dist target = ⊤ ∧ prevStep prev target = none ∧
      ∀ fuel, 1 ≤ fuel → reconstructPath prev target fuel = some [target] := by
  have hg := parseEdges_good hparse
  obtain ⟨hmem, st, hinv, hpq, hdist, hprev⟩ := dijkstra_final g s hg dist prev hrun
  subst hdist
  subst hprev
  have hnr : ¬ Reachable g s target := by
    cases htgt with
    | inl h => exact h
    | inr h =>
      rintro ⟨w, hw⟩
      cases hw with
      | nil => exact h hmem
      | snoc hwalk hedge => exact h (edgeWeight_target_mem g hg _ _ _ hedge)
  obtain ⟨hdt, hpt⟩ := final_unreachable g s st hinv hpq target hnr
  refine ⟨hdt, hpt, ?_⟩
  intro fuel hfuel
  obtain ⟨m, rfl⟩ : ∃ m, fuel = m + 1 := ⟨fuel - 1, by omega⟩
  unfold reconstructPath backWalk
  rw [hpt]
  rfl

theorem dijkstra_unreachable_witness :
    (("Z" : String) ∉ gEx.map Prod.fst) ∧ distOf distEx "Z" = ⊤ ∧
      prevStep prevEx "Z" = none ∧ reconstructPath prevEx "Z" 1 = some ["Z"] := by
  have h := dijkstra_unreachable "A B 5\nB C 3" true gEx "A" distEx prevEx
    (by with_unfolding_all rfl) (by with_unfolding_all rfl) "Z"
    (Or.inr (by decide))
  exact ⟨by decide, h.1, h.2.1, h.2.2 1 (le_refl 1)⟩

/-- C9: on the predecessor map `dijkstra` produces, the unguarded
predecessor-following loop of `reconstructPath` terminates for every
target: the predecessor chain is acyclic and `|graph| + 1` loop
iterations always suffice (every larger fuel returns the same path). -/
theorem reconstructPath_terminates (text : String) (und : Bool) (g : Graph) (s : String)
    (dist : List (String × WithTop ℚ)) (prev : List (String × Option String))
    (hparse : parseEdges text und = .ok g)
    (hrun : dijkstra g s = .ok (dist, prev)) (target : String) :
    ∃ p : List String, ∀ fuel, g.length + 1 ≤ fuel →
      reconstructPath prev target fuel = some p := by
  have hg := parseEdges_good hparse
  obtain ⟨-, st, hinv, hpq, hdist, hprev⟩ := dijkstra_final g s hg dist prev hrun
  subst hprev
  obtain ⟨l, hl⟩ := backWalk_total g s st hinv target
  refine ⟨l.reverse, ?_⟩
  intro fuel hfuel
  unfold reconstructPath
  rw [backWalk_mono st.prev (g.length + 1) target l hl fuel hfuel]
  rfl

theorem reconstructPath_terminates_witness :
    reconstructPath prevEx "B" (gEx.length + 1) = some ["A", "B"] := by
  obtain ⟨p, hp⟩ := reconstructPath_terminates "A B 5\nB C 3" true gEx "A" distEx prevEx
    (by with_unfolding_all rfl) (by with_unfolding_all rfl) "B"
  have h4 := hp (gEx.length + 1) (le_refl _)
  have hcalc : reconstructPath prevEx "B" (gEx.length + 1) = some ["A", "B"] := by
    with_unfolding_all rfl
  rw [h4]
  rw [h4] at hcalc
  exact hcalc

/-- C10: the distance and predecessor maps `dijkstra` returns carry
exactly the graph's keys (even in the same order), and on a
`parseEdges`-built graph every neighbour occurring in an adjacency list
is itself a graph key, so relaxation only ever touches graph keys. -/
theorem dijkstra_key_sets (text : String) (und : Bool) (g : Graph) (s : String)
    (dist : List (String × WithTop ℚ)) (prev : List (String × Option String))
    (hparse : parseEdges text und = .ok g)
    (hrun : dijkstra g s = .ok (dist, prev)) :
    dist.map Prod.fst = g.map Prod.fst ∧ prev.map Prod.fst = g.map Prod.fst ∧
      ∀ p ∈ g, ∀ e ∈ p.2, e.1 ∈ g.map Prod.fst := by
  have hg := parseEdges_good hparse
  obtain ⟨-, st, hinv, -, hdist, hprev⟩ := dijkstra_final g s hg dist prev hrun
  subst hdist
  subst hprev
  exact ⟨hinv.keysD, hinv.keysP, hg.closed⟩

theorem dijkstra_key_sets_witness :
    distEx.map Prod.fst = gEx.map Prod.fst ∧ prevEx.map Prod.fst = gEx.map Prod.fst :=
  ⟨(dijkstra_key_sets "A B 5\nB C 3" true gEx "A" distEx prevEx
      (by with_unfolding_all rfl) (by with_unfolding_all rfl)).1,
    (dijkstra_key_sets "A B 5\nB C 3" true gEx "A" distEx prevEx
      (by with_unfolding_all rfl) (by with_unfolding_all rfl)).2.1⟩

end Dspro
